import Mathlib

/-! Recipe database tools: converter, recipe diff and path-list diff.

A shallow embedding of `src/ex00/readDB.go` (`getReader`, `printDB`, `main`),
`src/ex01/compareDB.go` (`removeJSONComments`, `CompareDatabases`,
`compareIngredients`, `main`) and `src/ex02/compareFS.go` (`CompareFileSystems`,
`main`).

* Standard output is modelled as the list of strings written by the successive
  `fmt.Printf` calls; each entry keeps its trailing newline.
* A Go `map[string]V` is modelled by `GoMap V`, a list of bindings with at most one
  binding per key. `mapSet`, `mapGet` and `mapDelete` are `m[k] = v`, `v, exists := m[k]`
  and `delete(m, k)`.
* `for k, v := range m` visits every binding of `m` exactly once, in an order the
  language leaves unspecified. The order is an explicit parameter of the embedded
  functions: a function `range` that returns the bindings in the order in which they
  are visited. `RangeOK` says that it returns a rearrangement of the bindings.
* `json.Number` is a Go `string` type, so `Count` is a `String`.
* A `[]byte` is a list of natural numbers; `removeJSONComments` only compares bytes.
* The files, the flags and the codecs of Go's `encoding/json` and `encoding/xml` are
  parameters of the tools (`World`); a run yields what was printed and the exit status.
-/

namespace RecipeDB

/-! ## Data model (`compareDB.go` lines 15-29) -/

structure Ingredient where
  Name : String
  Count : String
  Unit : String
deriving DecidableEq, Repr

structure Cake where
  Name : String
  Time : String
  Ingredients : List Ingredient
deriving DecidableEq, Repr

structure Recipes where
  Cakes : List Cake
deriving DecidableEq, Repr

/-! ## Go maps -/

/-- Bindings of a Go `map[string]V`. -/
abbrev GoMap (V : Type) := List (String × V)

/-- The two-result lookup `v, exists := m[k]`: `none` stands for `exists = false`, so
that `!exists` is `(mapGet m k).isNone`. -/
def mapGet {V : Type} : GoMap V → String → Option V
  | [], _ => none
  | (k', v) :: rest, k => if k' = k then some v else mapGet rest k

/-- The assignment `m[k] = v`: replaces the binding of `k` when there is one. -/
def mapSet {V : Type} : GoMap V → String → V → GoMap V
  | [], k, v => [(k, v)]
  | (k', v') :: rest, k, v =>
    if k' = k then (k, v) :: rest else (k', v') :: mapSet rest k v

/-- The statement `delete(m, k)`. -/
def mapDelete {V : Type} : GoMap V → String → GoMap V
  | [], _ => []
  | (k', v') :: rest, k => if k' = k then rest else (k', v') :: mapDelete rest k

/-- The keys of a map. -/
def mapKeys {V : Type} (m : GoMap V) : List String := m.map Prod.fst

/-- An iteration order of `range` over a map whose values have type `V`. -/
abbrev Range (V : Type) := GoMap V → List (String × V)

/-- The order visits every binding exactly once. -/
def RangeOK {V : Type} (range : Range V) : Prop := ∀ m : GoMap V, (range m).Perm m

/-- The order in which the bindings were first inserted: one admissible order. -/
def insertionOrder {V : Type} : Range V := fun m => m

/-- The reverse of the insertion order: another admissible order. -/
def reverseOrder {V : Type} : Range V := fun m => m.reverse

/-! ## Report lines (the `fmt.Printf` formats of `compareDB.go`) -/

/-- Line 140: `"ADDED cake \"%s\"\n"`. -/
def addedCake (name : String) : String :=
  "ADDED cake \"" ++ name ++ "\"\n"

/-- Line 146: `"REMOVED cake \"%s\"\n"`. -/
def removedCake (name : String) : String :=
  "REMOVED cake \"" ++ name ++ "\"\n"

/-- Line 153: `"CHANGED cooking time for cake \"%s\" - \"%s\" instead of \"%s\"\n"`. -/
def changedTime (cake newTime oldTime : String) : String :=
  "CHANGED cooking time for cake \"" ++ cake ++ "\" - \"" ++ newTime
    ++ "\" instead of \"" ++ oldTime ++ "\"\n"

/-- Line 173: `"ADDED ingredient \"%s\" for cake \"%s\"\n"`. -/
def addedIngredient (ing cake : String) : String :=
  "ADDED ingredient \"" ++ ing ++ "\" for cake \"" ++ cake ++ "\"\n"

/-- Line 179: `"REMOVED ingredient \"%s\" for cake \"%s\"\n"`. -/
def removedIngredient (ing cake : String) : String :=
  "REMOVED ingredient \"" ++ ing ++ "\" for cake \"" ++ cake ++ "\"\n"

/-- Line 185: the unit count format. -/
def changedCount (ing cake newCount oldCount : String) : String :=
  "CHANGED unit count for ingredient \"" ++ ing ++ "\" for cake \"" ++ cake
    ++ "\" - \"" ++ newCount ++ "\" instead of \"" ++ oldCount ++ "\"\n"

/-- Line 190: `"ADDED unit \"%s\" for ingredient \"%s\" for cake \"%s\"\n"`. -/
def addedUnit (unit ing cake : String) : String :=
  "ADDED unit \"" ++ unit ++ "\" for ingredient \"" ++ ing ++ "\" for cake \""
    ++ cake ++ "\"\n"

/-- Line 192: `"REMOVED unit \"%s\" for ingredient \"%s\" for cake \"%s\"\n"`. -/
def removedUnit (unit ing cake : String) : String :=
  "REMOVED unit \"" ++ unit ++ "\" for ingredient \"" ++ ing ++ "\" for cake \""
    ++ cake ++ "\"\n"

/-- Line 194: the unit change format. -/
def changedUnit (ing cake newUnit oldUnit : String) : String :=
  "CHANGED unit for ingredient \"" ++ ing ++ "\" for cake \"" ++ cake
    ++ "\" - \"" ++ newUnit ++ "\" instead of \"" ++ oldUnit ++ "\"\n"

/-! ## `compareIngredients` (`compareDB.go` lines 160-200) -/

/-- Lines 164-170: the map built by assigning every ingredient under its name. -/
def ingredientMap (ingredients : List Ingredient) : GoMap Ingredient :=
  ingredients.foldl (fun m ingredient => mapSet m ingredient.Name ingredient) []

/-- Lines 183-198: the body of the loop over the old map, for one binding. -/
def sharedIngredient (cakeName : String) (newIngredientMap : GoMap Ingredient)
    (entry : String × Ingredient) : List String :=
  let name := entry.1
  let oldIngredient := entry.2
  match mapGet newIngredientMap name with
  | some newIngredient =>
    (if oldIngredient.Count ≠ newIngredient.Count then
      [changedCount name cakeName newIngredient.Count oldIngredient.Count]
    else [])
    ++
    (if oldIngredient.Unit ≠ newIngredient.Unit then
      if oldIngredient.Unit = "" then
        [addedUnit newIngredient.Unit name cakeName]
      else if newIngredient.Unit = "" then
        [removedUnit oldIngredient.Unit name cakeName]
      else
        [changedUnit name cakeName newIngredient.Unit oldIngredient.Unit]
    else [])
  | none => []

/-- The function `compareIngredients`; `range` is the order in which the loop of
line 182 visits the old map. -/
def compareIngredients (range : Range Ingredient) (cakeName : String)
    (oldIngredients newIngredients : List Ingredient) : List String :=
  let oldIngredientMap := ingredientMap oldIngredients
  let newIngredientMap := ingredientMap newIngredients
  (newIngredients.flatMap fun newIngredient =>
    if (mapGet oldIngredientMap newIngredient.Name).isNone then
      [addedIngredient newIngredient.Name cakeName]
    else [])
  ++
  (oldIngredients.flatMap fun oldIngredient =>
    if (mapGet newIngredientMap oldIngredient.Name).isNone then
      [removedIngredient oldIngredient.Name cakeName]
    else [])
  ++
  ((range oldIngredientMap).flatMap (sharedIngredient cakeName newIngredientMap))

/-! ## `CompareDatabases` (`compareDB.go` lines 126-158) -/

/-- Lines 130-136: the map built by assigning every cake under its name. -/
def cakeMap (cakes : List Cake) : GoMap Cake :=
  cakes.foldl (fun m cake => mapSet m cake.Name cake) []

/-- Lines 151-156: the body of the third loop for one old cake. -/
def sharedCake (range : Range Ingredient) (newCakesMap : GoMap Cake) (oldCake : Cake) :
    List String :=
  match mapGet newCakesMap oldCake.Name with
  | some newCake =>
    (if oldCake.Time ≠ newCake.Time then
      [changedTime oldCake.Name newCake.Time oldCake.Time]
    else [])
    ++ compareIngredients range oldCake.Name oldCake.Ingredients newCake.Ingredients
  | none => []

/-- Lines 150-157: the third loop. The call of `compareIngredients` made for the old
cake at position `i` iterates its map in the order `ranges i`. -/
def sharedCakes (ranges : Nat → Range Ingredient) (newCakesMap : GoMap Cake) :
    Nat → List Cake → List String
  | _, [] => []
  | i, oldCake :: rest =>
    sharedCake (ranges i) newCakesMap oldCake ++ sharedCakes ranges newCakesMap (i + 1) rest

/-- The function `CompareDatabases`. -/
def CompareDatabases (ranges : Nat → Range Ingredient) (oldCakes newCakes : Recipes) :
    List String :=
  let oldCakesMap := cakeMap oldCakes.Cakes
  let newCakesMap := cakeMap newCakes.Cakes
  (newCakes.Cakes.flatMap fun cake =>
    if (mapGet oldCakesMap cake.Name).isNone then [addedCake cake.Name] else [])
  ++
  (oldCakes.Cakes.flatMap fun cake =>
    if (mapGet newCakesMap cake.Name).isNone then [removedCake cake.Name] else [])
  ++
  sharedCakes ranges newCakesMap 0 oldCakes.Cakes

/-- Every call of `compareIngredients` visits each binding exactly once. -/
def RangesOK (ranges : Nat → Range Ingredient) : Prop := ∀ i, RangeOK (ranges i)

/-! ## `CompareFileSystems` (`compareFS.go` lines 17-56) -/

/-- Line 44: `"ADDED %s\n"`. -/
def addedLine (line : String) : String := "ADDED " ++ line ++ "\n"

/-- Line 53: `"REMOVED %s\n"`. -/
def removedLine (file : String) : String := "REMOVED " ++ file ++ "\n"

/-- Lines 27-29: the set of the lines of the old file. -/
def lineSet (lines : List String) : GoMap Unit :=
  lines.foldl (fun m line => mapSet m line ()) []

/-- Lines 41-47: the loop over the lines of the new file, threading the set and
collecting what is printed. -/
def scanNew : GoMap Unit → List String → List String × GoMap Unit
  | oldFiles, [] => ([], oldFiles)
  | oldFiles, line :: rest =>
    let printed := if (mapGet oldFiles line).isNone then [addedLine line] else []
    let r := scanNew (mapDelete oldFiles line) rest
    (printed ++ r.1, r.2)

/-- What `os.Open` and a `bufio.Scanner` give for a path: the error of `os.Open`, or the
lines that `scanner.Scan` yields, in order, together with the value of `scanner.Err()`
when it stops (`none` at the end of the file; an error, for instance, at a line that
does not fit the scanner's buffer). -/
inductive ScanResult where
  | openError (msg : String)
  | scanned (lines : List String) (err : Option String)

/-- The function `CompareFileSystems`; `range` is the order in which the loop of line 52
visits what is left of the set. The result is what was printed and the returned error
(`none` for `nil`). The old file is read completely before anything is printed; an
error of the scanner of the new file is returned after the `ADDED` lines of the lines
read so far, and no `REMOVED` line is printed then. -/
def CompareFileSystems (range : Range Unit) (oldFile newFile : ScanResult) :
    List String × Option String :=
  match oldFile with
  | .openError err => ([], some ("error opening old file " ++ err))
  | .scanned oldLines oldErr =>
    let oldFiles := lineSet oldLines
    match oldErr with
    | some err => ([], some ("error reading old file " ++ err))
    | none =>
      match newFile with
      | .openError err => ([], some ("error opening new file " ++ err))
      | .scanned newLines newErr =>
        let r := scanNew oldFiles newLines
        match newErr with
        | some err => (r.1, some ("error reading new file " ++ err))
        | none => (r.1 ++ (range r.2).map fun file => removedLine file.1, none)

/-- The map built from a list by assigning every element under its key: the common
form of `ingredientMap`, `cakeMap` and `lineSet`. -/
def keyed {α : Type} (key : α → String) (l : List α) : GoMap α :=
  l.foldl (fun m x => mapSet m (key x) x) []

/-- A third admissible order: the insertion order started one binding later. -/
def rotatedOrder {V : Type} : Range V := fun m => m.rotate 1

/-! ## The invariants and relations that the properties speak about -/

/-- Invariant 1: the cake names of a collection are pairwise distinct. -/
def CakeNamesUnique (r : Recipes) : Prop := (r.Cakes.map Cake.Name).Nodup

/-- Invariant 2: the ingredient names of every cake are pairwise distinct. -/
def IngredientNamesUnique (r : Recipes) : Prop :=
  ∀ c ∈ r.Cakes, (c.Ingredients.map Ingredient.Name).Nodup

/-- Two cakes agree up to the order of their ingredients. -/
def SameCake (a b : Cake) : Prop :=
  a.Name = b.Name ∧ a.Time = b.Time ∧ a.Ingredients.Perm b.Ingredients

/-- The collection `b` is `a` up to the order of the cakes and the order of the
ingredients inside each cake: some rearrangement of the cakes of `b` matches the cakes
of `a` one by one. -/
def Reordered (a b : Recipes) : Prop :=
  ∃ cakes : List Cake, cakes.Perm b.Cakes ∧ List.Forall₂ SameCake a.Cakes cakes

instance (r : Recipes) : Decidable (CakeNamesUnique r) :=
  inferInstanceAs (Decidable (List.Nodup _))

instance (r : Recipes) : Decidable (IngredientNamesUnique r) :=
  inferInstanceAs (Decidable (∀ c ∈ r.Cakes, (c.Ingredients.map Ingredient.Name).Nodup))

/-! ## The end-to-end scenario -/

/-- The old collection of the scenario. -/
def scenarioOld : Recipes :=
  ⟨[⟨"Red Velvet", "40 min",
      [⟨"Flour", "3", "cups"⟩, ⟨"Strawberries", "7", ""⟩, ⟨"Cinnamon", "1", "pieces"⟩,
        ⟨"Vanilla extract", "1", ""⟩]⟩,
    ⟨"Blueberry Muffin Cake", "30 min", []⟩]⟩

/-- The new collection of the scenario. -/
def scenarioNew : Recipes :=
  ⟨[⟨"Red Velvet", "45 min",
      [⟨"Flour", "2", "mugs"⟩, ⟨"Strawberries", "8", ""⟩, ⟨"Cinnamon", "1", ""⟩,
        ⟨"Coffee beans", "1", ""⟩]⟩,
    ⟨"Moonshine Muffin", "30 min", []⟩]⟩

/-- The old collection of the scenario with its cakes swapped and the ingredients of
the first cake rearranged. -/
def scenarioOldShuffled : Recipes :=
  ⟨[⟨"Blueberry Muffin Cake", "30 min", []⟩,
    ⟨"Red Velvet", "40 min",
      [⟨"Vanilla extract", "1", ""⟩, ⟨"Flour", "3", "cups"⟩, ⟨"Cinnamon", "1", "pieces"⟩,
        ⟨"Strawberries", "7", ""⟩]⟩]⟩

/-! ## Descriptions of the report in terms of the input lists -/

/-- The last cake of a list that has the given name. -/
def lastCake (cakes : List Cake) (name : String) : Option Cake :=
  cakes.reverse.find? fun c => decide (c.Name = name)

/-- The last ingredient of a list that has the given name. -/
def lastIngredient (ingredients : List Ingredient) (name : String) : Option Ingredient :=
  ingredients.reverse.find? fun i => decide (i.Name = name)

/-- The count record of an ingredient: present exactly when the count strings differ. -/
def countRecord (cake name : String) (o n : Ingredient) : List String :=
  if o.Count = n.Count then [] else [changedCount name cake n.Count o.Count]

/-- The unit record of an ingredient: none when the units are equal, `ADDED` when only
the old unit is empty, `REMOVED` when only the new unit is empty, `CHANGED` otherwise. -/
def unitRecord (cake name : String) (o n : Ingredient) : List String :=
  if o.Unit = n.Unit then []
  else if o.Unit = "" then [addedUnit n.Unit name cake]
  else if n.Unit = "" then [removedUnit o.Unit name cake]
  else [changedUnit name cake n.Unit o.Unit]

/-- The count and unit records of the old ingredient `e.2`, named `e.1`, against the
last ingredient of that name in the new cake; none when the new cake has no such
ingredient. -/
def sharedRecords (cake : String) (new : List Ingredient) (e : String × Ingredient) :
    List String :=
  match lastIngredient new e.1 with
  | some n => countRecord cake e.1 e.2 n ++ unitRecord cake e.1 e.2 n
  | none => []

/-- The nine lines that the scenario expects, in the expected order. -/
def scenarioExpected : List String :=
  ["ADDED cake \"Moonshine Muffin\"\n",
   "REMOVED cake \"Blueberry Muffin Cake\"\n",
   "CHANGED cooking time for cake \"Red Velvet\" - \"45 min\" instead of \"40 min\"\n",
   "ADDED ingredient \"Coffee beans\" for cake \"Red Velvet\"\n",
   "REMOVED ingredient \"Vanilla extract\" for cake \"Red Velvet\"\n",
   "CHANGED unit count for ingredient \"Flour\" for cake \"Red Velvet\" - \"2\" instead of \"3\"\n",
   "CHANGED unit for ingredient \"Flour\" for cake \"Red Velvet\" - \"mugs\" instead of \"cups\"\n",
   "CHANGED unit count for ingredient \"Strawberries\" for cake \"Red Velvet\" - \"8\" instead of \"7\"\n",
   "REMOVED unit \"pieces\" for ingredient \"Cinnamon\" for cake \"Red Velvet\"\n"]

/-- The same nine lines in the order that the rotated iteration produces: the records
of `Flour` come last, as in the run recorded at lines 242-250 of `compareDB.go`. -/
def scenarioRotated : List String :=
  ["ADDED cake \"Moonshine Muffin\"\n",
   "REMOVED cake \"Blueberry Muffin Cake\"\n",
   "CHANGED cooking time for cake \"Red Velvet\" - \"45 min\" instead of \"40 min\"\n",
   "ADDED ingredient \"Coffee beans\" for cake \"Red Velvet\"\n",
   "REMOVED ingredient \"Vanilla extract\" for cake \"Red Velvet\"\n",
   "CHANGED unit count for ingredient \"Strawberries\" for cake \"Red Velvet\" - \"8\" instead of \"7\"\n",
   "REMOVED unit \"pieces\" for ingredient \"Cinnamon\" for cake \"Red Velvet\"\n",
   "CHANGED unit count for ingredient \"Flour\" for cake \"Red Velvet\" - \"2\" instead of \"3\"\n",
   "CHANGED unit for ingredient \"Flour\" for cake \"Red Velvet\" - \"mugs\" instead of \"cups\"\n"]

/-! ## `removeJSONComments` (`compareDB.go` lines 75-95, `readDB.go` lines 75-96) -/

/-- The UTF-8 bytes of a string, as the numbers that a Go `[]byte` holds. -/
def bytesOf (s : String) : List Nat :=
  s.data.flatMap fun c => (String.utf8EncodeChar c).map UInt8.toNat

/-- Line 85-87: the comment flag after the byte `b` was inspected: a line break
(`'\n'` is 10, `'\r'` is 13) ends a comment. -/
def flagAfter (inComment : Bool) (b : Nat) : Bool :=
  if inComment && (b = 10 || b = 13) then false else inComment

/-- Lines 85-91: what the loop body writes for a byte that does not start `//`. -/
def written (inComment : Bool) (b : Nat) : List Nat :=
  if !(flagAfter inComment b) then [b] else []

/-- Lines 79-92: the loop, from the position whose remaining bytes are given, with the
current value of `inComment`; the result is what is written to the buffer from there
on. When the byte and the next one are both `'/'` (47), both are skipped and the flag
is set. -/
def removeLoop : Bool → List Nat → List Nat
  | _, [] => []
  | inComment, [b] => written inComment b
  | inComment, b :: b' :: rest =>
    if b = 47 ∧ b' = 47 then removeLoop true rest
    else written inComment b ++ removeLoop (flagAfter inComment b) (b' :: rest)

/-- The function `removeJSONComments`. -/
def removeJSONComments (data : List Nat) : List Nat := removeLoop false data

/-- The byte sequence contains two consecutive `'/'` bytes. -/
def HasDoubleSlash (d : List Nat) : Prop := ∃ a c : List Nat, d = a ++ 47 :: 47 :: c

/-- No byte of the sequence is a line break. -/
def NoLineBreak (b : List Nat) : Prop := ∀ x ∈ b, x ≠ 10 ∧ x ≠ 13

instance (b : List Nat) : Decidable (NoLineBreak b) :=
  inferInstanceAs (Decidable (∀ x ∈ b, x ≠ 10 ∧ x ≠ 13))

/-! ## The command-line tools (`main` of `readDB.go`, `compareDB.go`, `compareFS.go`) -/

/-- What a run of a tool leaves behind: the strings written to standard output, in
order, and the exit status of the process (0 when `main` returns). -/
structure Outcome where
  stdout : List String
  status : Nat
deriving DecidableEq, Repr

/-- What `os.Open` followed by `io.ReadAll` gives for a path: the bytes of the file, or
the message of the error of one of the two calls. -/
inductive FileResult where
  | content (bytes : List Nat)
  | openError (msg : String)
  | readError (msg : String)

/-- The surroundings of a run: the files, what a scanner yields for a path, and the
decoders and encoders of Go's `encoding/json` and `encoding/xml` for the type `Recipes`
(`none` when they return an error). -/
structure World where
  file : String → FileResult
  lines : String → ScanResult
  jsonUnmarshal : List Nat → Option Recipes
  xmlUnmarshal : List Nat → Option Recipes
  jsonMarshalIndent : Recipes → Option String
  xmlMarshalIndent : Recipes → Option String

/-- A world without files in which every decoder and encoder fails. -/
def emptyWorld : World :=
  ⟨fun _ => .openError "no such file or directory",
    fun _ => .openError "no such file or directory", fun _ => none,
    fun _ => none, fun _ => none, fun _ => none⟩

/-- The function `HandleError` (lines 31-36) followed by the rest of `main`: an error is
printed and the process exits with status 1, otherwise `main` goes on with the value. -/
def HandleError {α : Type} (r : Except String α) (rest : α → Outcome) : Outcome :=
  match r with
  | .error err => ⟨["Error: " ++ err ++ "\n"], 1⟩
  | .ok v => rest v

/-- The function `readFile` (lines 42-55). -/
def readFile (w : World) (filePath : String) : Except String (List Nat) :=
  match w.file filePath with
  | .openError err => .error ("failed to open file: " ++ err)
  | .readError err => .error ("failed to read file: " ++ err)
  | .content byteValue => .ok byteValue

/-- The two implementations of the interface `DBReader`. -/
inductive DBReader where
  | JSONReader
  | XMLReader
deriving DecidableEq, Repr

/-- The methods `JSONReader.Read` (lines 59-73) and `XMLReader.Read` (lines 99-112). -/
def DBReader.Read (w : World) : DBReader → String → Except String Recipes
  | .JSONReader, filePath =>
    match readFile w filePath with
    | .error err => .error err
    | .ok byteValue =>
      match w.jsonUnmarshal (removeJSONComments byteValue) with
      | none => .error "failed to deserialize JSON"
      | some db => .ok db
  | .XMLReader, filePath =>
    match readFile w filePath with
    | .error err => .error err
    | .ok byteValue =>
      match w.xmlUnmarshal byteValue with
      | none => .error "failed to deserialize XML"
      | some db => .ok db

/-- The loop of Go's `filepath.Ext` on a slash-separated path, over the characters of
the path from the last one backwards; `acc` is the suffix already passed. -/
def extLoop : List Char → List Char → List Char
  | [], _ => []
  | c :: before, acc =>
    if c = '/' then []
    else if c = '.' then '.' :: acc
    else extLoop before (c :: acc)

/-- Go's `filepath.Ext`: the suffix that begins at the final dot of the final element of
the path, empty when that element has no dot. -/
def filepathExt (path : String) : String := ⟨extLoop path.data.reverse []⟩

/-- Go's `strings.ToLower` on ASCII letters; other characters are left as they are. -/
def stringsToLower (s : String) : String := ⟨s.data.map Char.toLower⟩

/-- The function `getReader` (lines 114-124). -/
def getReader (filePath : String) : Except String DBReader :=
  let ext := filepathExt filePath
  if ext = ".json" then .ok .JSONReader
  else if ext = ".xml" then .ok .XMLReader
  else .error ("unsupported file extension: " ++ ext)

/-- The function `printDB` (`readDB.go` lines 127-142): the error, or what is printed.
For a format that is neither `json` nor `xml` nothing is marshalled and an empty line
is printed. -/
def printDB (w : World) (db : Recipes) (format : String) : Except String (List String) :=
  let data : Option String :=
    if format = "json" then w.jsonMarshalIndent db
    else if format = "xml" then w.xmlMarshalIndent db
    else some ""
  match data with
  | none => .error "failed to marshal data"
  | some data => .ok [data ++ "\n"]

/-- The variable `format` of `main` (`readDB.go` lines 161-167). -/
def outputFormat (filePath : String) : String :=
  let ext := stringsToLower (filepathExt filePath)
  if ext = ".json" then "xml"
  else if ext = ".xml" then "json"
  else ""

/-- The function `main` of `readDB.go` (lines 150-172); `filePath` is the value of the
flag `-f`. -/
def mainReadDB (w : World) (filePath : String) : Outcome :=
  if filePath = "" then
    ⟨["Please specify the file path using the -f option\n"], 0⟩
  else
    HandleError (getReader filePath) fun reader =>
    HandleError (reader.Read w filePath) fun db =>
    HandleError (printDB w db (outputFormat filePath)) fun printed =>
    ⟨printed, 0⟩

/-- The function `main` of `compareDB.go` (lines 202-225); the arguments are the values
of the flags `--old` and `--new`. -/
def mainCompareDB (w : World) (ranges : Nat → Range Ingredient)
    (oldFilePath newFilePath : String) : Outcome :=
  if oldFilePath = "" ∨ newFilePath = "" then
    ⟨["Usage: --old <old_file> --new <new_file>\n"], 0⟩
  else
    HandleError (getReader oldFilePath) fun oldReader =>
    HandleError (getReader newFilePath) fun newReader =>
    HandleError (oldReader.Read w oldFilePath) fun oldCakes =>
    HandleError (newReader.Read w newFilePath) fun newCakes =>
    ⟨CompareDatabases ranges oldCakes newCakes, 0⟩

/-- The function `main` of `compareFS.go` (lines 58-70): `HandleError` runs after
`CompareFileSystems` has printed. -/
def mainCompareFS (w : World) (range : Range Unit) (oldFilePath newFilePath : String) :
    Outcome :=
  if oldFilePath = "" ∨ newFilePath = "" then
    ⟨["Usage: --old <old_file> --new <new_file>\n"], 0⟩
  else
    let r := CompareFileSystems range (w.lines oldFilePath) (w.lines newFilePath)
    match r.2 with
    | some err => ⟨r.1 ++ ["Error: " ++ err ++ "\n"], 1⟩
    | none => ⟨r.1, 0⟩

/-! ## Duplicate names -/

/-- The records of an old cake against the last cake of its name in the new
collection: the time record and the ingredient records; none when the new collection
has no cake of that name. -/
def lastCakeRecords (range : Range Ingredient) (new : List Cake) (oldCake : Cake) :
    List String :=
  match lastCake new oldCake.Name with
  | some newCake =>
    (if oldCake.Time = newCake.Time then []
      else [changedTime oldCake.Name newCake.Time oldCake.Time])
    ++ compareIngredients range oldCake.Name oldCake.Ingredients newCake.Ingredients
  | none => []

/-- A collection with two cakes of the same name that differ in their time. -/
def twoTimes : Recipes := ⟨[⟨"Muffin", "10 min", []⟩, ⟨"Muffin", "20 min", []⟩]⟩

/-- A collection with one cake: the second cake of `twoTimes`. -/
def lastOfTwoTimes : Recipes := ⟨[⟨"Muffin", "20 min", []⟩]⟩

/-- An old collection with a repeated cake name and a repeated ingredient name. -/
def repeatedOld : Recipes :=
  ⟨[⟨"Muffin", "10 min", [⟨"Flour", "1", ""⟩, ⟨"Flour", "2", ""⟩]⟩,
    ⟨"Muffin", "20 min", []⟩]⟩

/-- A new collection with a repeated cake name and a repeated ingredient name. -/
def repeatedNew : Recipes :=
  ⟨[⟨"Muffin", "30 min", [⟨"Flour", "9", "cups"⟩]⟩,
    ⟨"Muffin", "20 min", [⟨"Flour", "3", ""⟩, ⟨"Flour", "2", ""⟩]⟩]⟩

/-! ## Round trip through a reader -/

theorem mapGet_mapSet {V : Type} (m : GoMap V) (k k' : String) (v : V) :
    mapGet (mapSet m k v) k' = if k = k' then some v else mapGet m k' := by
  induction m with
  | nil => simp [mapSet, mapGet]
  | cons e rest ih =>
    obtain ⟨k0, v0⟩ := e
    by_cases h : k0 = k
    · subst h
      by_cases h' : k0 = k' <;> simp [mapSet, mapGet, h']
    · simp only [mapSet, if_neg h, mapGet]
      by_cases h2 : k0 = k'
      · have h' : ¬ k = k' := fun e => h (h2.trans e.symm)
        simp [h2, h']
      · simp [h2, ih]

theorem mapKeys_mapSet_nodup {V : Type} (m : GoMap V) (k : String) (v : V)
    (h : (mapKeys m).Nodup) : (mapKeys (mapSet m k v)).Nodup := by
  induction m with
  | nil => simp [mapSet, mapKeys]
  | cons e rest ih =>
    obtain ⟨k0, v0⟩ := e
    simp only [mapKeys, List.map_cons, List.nodup_cons] at h
    by_cases h0 : k0 = k
    · subst h0
      simpa [mapSet, mapKeys] using h
    · have hmem : ∀ x, x ∈ mapKeys (mapSet rest k v) → x = k ∨ x ∈ mapKeys rest := by
        intro x
        clear ih h
        induction rest with
        | nil => simp [mapSet, mapKeys]
        | cons e' rest' ih' =>
          obtain ⟨k1, v1⟩ := e'
          by_cases h1 : k1 = k
          · subst h1
            simp [mapSet, mapKeys]
          · simp only [mapSet, h1, if_false, mapKeys, List.map_cons, List.mem_cons]
            rintro (hx | hx)
            · exact Or.inr (Or.inl hx)
            · rcases ih' hx with hx | hx
              · exact Or.inl hx
              · exact Or.inr (Or.inr hx)
      simp only [mapSet, h0, if_false, mapKeys, List.map_cons, List.nodup_cons]
      refine ⟨fun hk => ?_, ih h.2⟩
      rcases hmem _ hk with hk | hk
      · exact h0 hk
      · exact h.1 hk

theorem mapGet_eq_some_iff_mem {V : Type} (m : GoMap V) (h : (mapKeys m).Nodup)
    (k : String) (v : V) : mapGet m k = some v ↔ (k, v) ∈ m := by
  induction m with
  | nil => simp [mapGet]
  | cons e rest ih =>
    obtain ⟨k0, v0⟩ := e
    simp only [mapKeys, List.map_cons, List.nodup_cons] at h
    by_cases h0 : k0 = k
    · subst h0
      simp only [mapGet, if_true, Option.some.injEq, List.mem_cons, Prod.mk.injEq, true_and]
      constructor
      · intro hv; exact Or.inl hv.symm
      · rintro (hv | hv)
        · exact hv.symm
        · exact absurd (List.mem_map_of_mem Prod.fst hv) h.1
    · simp only [mapGet, h0, if_false, List.mem_cons, Prod.mk.injEq]
      rw [ih h.2]
      constructor
      · intro hv; exact Or.inr hv
      · rintro (hv | hv)
        · exact absurd hv.1.symm h0
        · exact hv

theorem keyed_append_singleton {α : Type} (key : α → String) (l : List α) (x : α) :
    keyed key (l ++ [x]) = mapSet (keyed key l) (key x) x := by
  simp [keyed, List.foldl_append]

theorem keyed_nodup {α : Type} (key : α → String) (l : List α) :
    (mapKeys (keyed key l)).Nodup := by
  induction l using List.reverseRecOn with
  | nil => simp [keyed, mapKeys]
  | append_singleton l x ih =>
    rw [keyed_append_singleton]
    exact mapKeys_mapSet_nodup _ _ _ ih

/-- A lookup in the built map returns the last element that has the key. -/
theorem mapGet_keyed {α : Type} (key : α → String) (l : List α) (k : String) :
    mapGet (keyed key l) k = l.reverse.find? (fun x => decide (key x = k)) := by
  induction l using List.reverseRecOn with
  | nil => simp [keyed, mapGet]
  | append_singleton l x ih =>
    rw [keyed_append_singleton, mapGet_mapSet, List.reverse_append]
    by_cases h : key x = k <;> simp [h, ih]

theorem mapGet_keyed_eq_none {α : Type} (key : α → String) (l : List α) (k : String) :
    mapGet (keyed key l) k = none ↔ k ∉ l.map key := by
  rw [mapGet_keyed, List.find?_eq_none]
  simp

theorem mapGet_keyed_some {α : Type} (key : α → String) (l : List α) (k : String) (x : α)
    (h : mapGet (keyed key l) k = some x) : x ∈ l ∧ key x = k := by
  rw [mapGet_keyed] at h
  have h1 := List.mem_of_find?_eq_some h
  have h2 := List.find?_some h
  exact ⟨by simpa using h1, by simpa using h2⟩

theorem mapGet_keyed_of_mem {α : Type} (key : α → String) (l : List α)
    (hnd : (l.map key).Nodup) (x : α) (hx : x ∈ l) :
    mapGet (keyed key l) (key x) = some x := by
  cases h : mapGet (keyed key l) (key x) with
  | none =>
    rw [mapGet_keyed_eq_none] at h
    exact absurd (List.mem_map_of_mem key hx) h
  | some y =>
    obtain ⟨hy, hk⟩ := mapGet_keyed_some key l _ y h
    rw [List.inj_on_of_nodup_map hnd hy hx hk]

theorem mem_keyed {α : Type} (key : α → String) (l : List α) (e : String × α)
    (h : e ∈ keyed key l) : e.2 ∈ l ∧ key e.2 = e.1 :=
  mapGet_keyed_some key l e.1 e.2
    ((mapGet_eq_some_iff_mem _ (keyed_nodup key l) e.1 e.2).2 h)


/-! ## Empty reports -/

theorem ingredientMap_eq (l : List Ingredient) : ingredientMap l = keyed Ingredient.Name l := rfl

theorem cakeMap_eq (l : List Cake) : cakeMap l = keyed Cake.Name l := rfl

theorem sharedIngredient_eq_nil_iff (c : String) (m : GoMap Ingredient) (k : String)
    (o n : Ingredient) (h : mapGet m k = some n) :
    sharedIngredient c m (k, o) = [] ↔ o.Count = n.Count ∧ o.Unit = n.Unit := by
  simp only [sharedIngredient, h]
  by_cases hc : o.Count = n.Count <;> by_cases hu : o.Unit = n.Unit <;>
    by_cases h1 : o.Unit = "" <;> by_cases h2 : n.Unit = "" <;> simp [hc, hu, h1, h2]

theorem absent_eq_nil_iff {β : Type} (o : Option β) (a : String) :
    (if o.isNone then [a] else []) = [] ↔ o ≠ none := by
  cases o <;> simp

theorem compareIngredients_eq_nil_iff (range : Range Ingredient) (c : String)
    (old new : List Ingredient) :
    compareIngredients range c old new = [] ↔
      (∀ n ∈ new, mapGet (ingredientMap old) n.Name ≠ none) ∧
      (∀ o ∈ old, mapGet (ingredientMap new) o.Name ≠ none) ∧
      (∀ e ∈ range (ingredientMap old), sharedIngredient c (ingredientMap new) e = []) := by
  simp only [compareIngredients, List.append_eq_nil, List.flatMap_eq_nil_iff, and_assoc,
    absent_eq_nil_iff]

/-- Reordering the ingredients of a cake produces no record. -/
theorem compareIngredients_perm (range : Range Ingredient) (hr : RangeOK range) (c : String)
    (old new : List Ingredient) (hnd : (old.map Ingredient.Name).Nodup) (hp : old.Perm new) :
    compareIngredients range c old new = [] := by
  have hnd' : (new.map Ingredient.Name).Nodup := (hp.map _).nodup_iff.1 hnd
  rw [compareIngredients_eq_nil_iff]
  refine ⟨fun n hn => ?_, fun o ho => ?_, fun e he => ?_⟩
  · rw [ingredientMap_eq, mapGet_keyed_of_mem _ _ hnd n (hp.mem_iff.2 hn)]
    simp
  · rw [ingredientMap_eq, mapGet_keyed_of_mem _ _ hnd' o (hp.mem_iff.1 ho)]
    simp
  · have he' : e ∈ keyed Ingredient.Name old := (hr _).mem_iff.1 he
    obtain ⟨hmem, hk⟩ := mem_keyed _ _ _ he'
    have hg : mapGet (ingredientMap new) e.1 = some e.2 := by
      rw [← hk, ingredientMap_eq]
      exact mapGet_keyed_of_mem _ _ hnd' _ (hp.mem_iff.1 hmem)
    obtain ⟨k, o⟩ := e
    exact (sharedIngredient_eq_nil_iff c _ k o o hg).2 ⟨rfl, rfl⟩

/-- An empty ingredient report means that the two lists are rearrangements of one
another. -/
theorem perm_of_compareIngredients_eq_nil (range : Range Ingredient) (hr : RangeOK range)
    (c : String) (old new : List Ingredient) (hold : (old.map Ingredient.Name).Nodup)
    (hnew : (new.map Ingredient.Name).Nodup)
    (h : compareIngredients range c old new = []) : old.Perm new := by
  rw [compareIngredients_eq_nil_iff] at h
  obtain ⟨h1, h2, h3⟩ := h
  have sub : ∀ o ∈ old, o ∈ new := by
    intro o ho
    cases hg : mapGet (ingredientMap new) o.Name with
    | none => exact absurd hg (h2 o ho)
    | some n =>
      obtain ⟨hn, hname⟩ := mapGet_keyed_some _ _ _ _ hg
      have hin : (o.Name, o) ∈ range (ingredientMap old) := by
        apply (hr _).mem_iff.2
        exact (mapGet_eq_some_iff_mem _ (keyed_nodup _ _) _ _).1
          (mapGet_keyed_of_mem _ _ hold o ho)
      have := (sharedIngredient_eq_nil_iff c _ _ o n hg).1 (h3 _ hin)
      have heq : o = n := by
        cases o; cases n; simp_all
      rw [heq]; exact hn
  refine (List.perm_ext_iff_of_nodup (List.Nodup.of_map _ hold) (List.Nodup.of_map _ hnew)).2 ?_
  intro x
  refine ⟨sub x, fun hx => ?_⟩
  cases hg : mapGet (ingredientMap old) x.Name with
  | none => exact absurd hg (h1 x hx)
  | some o =>
    obtain ⟨ho, hname⟩ := mapGet_keyed_some _ _ _ _ hg
    have : o = x := List.inj_on_of_nodup_map hnew (sub o ho) hx hname
    rw [← this]; exact ho

theorem sharedCakes_eq_nil_iff (ranges : Nat → Range Ingredient) (m : GoMap Cake)
    (cakes : List Cake) (i : Nat) :
    sharedCakes ranges m i cakes = [] ↔
      ∀ j (hj : j < cakes.length), sharedCake (ranges (i + j)) m (cakes.get ⟨j, hj⟩) = [] := by
  induction cakes generalizing i with
  | nil => simp [sharedCakes]
  | cons c rest ih =>
    simp only [sharedCakes, List.append_eq_nil, ih]
    constructor
    · rintro ⟨h0, h⟩ j hj
      cases j with
      | zero => simpa using h0
      | succ j =>
        have := h j (by simpa using hj)
        simpa [Nat.add_assoc, Nat.add_comm 1 j] using this
    · intro h
      refine ⟨by simpa using h 0 (by simp), fun j hj => ?_⟩
      have := h (j + 1) (by simpa using hj)
      simpa [Nat.add_assoc, Nat.add_comm 1 j] using this


theorem sharedCake_eq_nil_iff (range : Range Ingredient) (m : GoMap Cake) (a b : Cake)
    (h : mapGet m a.Name = some b) :
    sharedCake range m a = [] ↔
      a.Time = b.Time ∧ compareIngredients range a.Name a.Ingredients b.Ingredients = [] := by
  simp only [sharedCake, h, List.append_eq_nil]
  by_cases ht : a.Time = b.Time <;> simp [ht]

theorem CompareDatabases_eq_nil_iff (ranges : Nat → Range Ingredient) (old new : Recipes) :
    CompareDatabases ranges old new = [] ↔
      (∀ b ∈ new.Cakes, mapGet (cakeMap old.Cakes) b.Name ≠ none) ∧
      (∀ a ∈ old.Cakes, mapGet (cakeMap new.Cakes) a.Name ≠ none) ∧
      (∀ j (hj : j < old.Cakes.length),
        sharedCake (ranges j) (cakeMap new.Cakes) (old.Cakes.get ⟨j, hj⟩) = []) := by
  simp only [CompareDatabases, List.append_eq_nil, List.flatMap_eq_nil_iff, and_assoc,
    absent_eq_nil_iff, sharedCakes_eq_nil_iff, Nat.zero_add]

theorem forall₂_left_mem {α β : Type} {R : α → β → Prop} {l : List α} {l' : List β}
    (h : List.Forall₂ R l l') : ∀ a ∈ l, ∃ b ∈ l', R a b := by
  induction h with
  | nil => simp
  | cons hab _ ih =>
    intro x hx
    rcases List.mem_cons.1 hx with hx | hx
    · subst hx
      exact ⟨_, List.mem_cons_self _ _, hab⟩
    · obtain ⟨b, hb, hr⟩ := ih x hx
      exact ⟨b, List.mem_cons_of_mem _ hb, hr⟩

theorem forall₂_sameCake_names {l l' : List Cake} (h : List.Forall₂ SameCake l l') :
    l.map Cake.Name = l'.map Cake.Name := by
  induction h with
  | nil => rfl
  | cons hab _ ih => simp [hab.1, ih]

/-- A reordered copy of a collection that satisfies the invariants has an empty
report, whatever the iteration orders. -/
theorem CompareDatabases_reordered (ranges : Nat → Range Ingredient) (hr : RangesOK ranges)
    (a b : Recipes) (h1 : CakeNamesUnique a) (h2 : IngredientNamesUnique a)
    (h : Reordered a b) : CompareDatabases ranges a b = [] := by
  obtain ⟨cakes, hperm, hall⟩ := h
  have hnames : (a.Cakes.map Cake.Name).Perm (b.Cakes.map Cake.Name) := by
    rw [forall₂_sameCake_names hall]
    exact hperm.map _
  have hb : (b.Cakes.map Cake.Name).Nodup := hnames.nodup_iff.1 h1
  rw [CompareDatabases_eq_nil_iff]
  refine ⟨fun y hy => ?_, fun x hx => ?_, fun j hj => ?_⟩
  · rw [Ne, cakeMap_eq, mapGet_keyed_eq_none, not_not]
    exact hnames.mem_iff.2 (List.mem_map_of_mem _ hy)
  · rw [Ne, cakeMap_eq, mapGet_keyed_eq_none, not_not]
    exact hnames.mem_iff.1 (List.mem_map_of_mem _ hx)
  · have hx : a.Cakes.get ⟨j, hj⟩ ∈ a.Cakes := List.get_mem _ _ _
    obtain ⟨y, hy, hname, htime, hings⟩ := forall₂_left_mem hall _ hx
    have hg : mapGet (cakeMap b.Cakes) (a.Cakes.get ⟨j, hj⟩).Name = some y := by
      rw [hname, cakeMap_eq]
      exact mapGet_keyed_of_mem _ _ hb y (hperm.mem_iff.1 hy)
    rw [sharedCake_eq_nil_iff _ _ _ y hg]
    exact ⟨htime, compareIngredients_perm _ (hr j) _ _ _ (h2 _ hx) hings⟩

theorem reordered_refl (a : Recipes) : Reordered a a :=
  ⟨a.Cakes, List.Perm.refl _, List.forall₂_same.2 fun _ _ => ⟨rfl, rfl, List.Perm.refl _⟩⟩

/-- An empty report between two collections that satisfy the invariants means that one
is a reordered copy of the other. -/
theorem reordered_of_CompareDatabases_eq_nil (ranges : Nat → Range Ingredient)
    (hr : RangesOK ranges) (a b : Recipes)
    (ha1 : CakeNamesUnique a) (ha2 : IngredientNamesUnique a)
    (hb1 : CakeNamesUnique b) (hb2 : IngredientNamesUnique b)
    (h : CompareDatabases ranges a b = []) : Reordered a b := by
  rw [CompareDatabases_eq_nil_iff] at h
  obtain ⟨hadd, hrem, hshared⟩ := h
  -- the partner of an old cake: the new cake of the same name
  have partner : ∀ x ∈ a.Cakes, ∃ y ∈ b.Cakes,
      mapGet (cakeMap b.Cakes) x.Name = some y ∧ SameCake x y := by
    intro x hx
    cases hg : mapGet (cakeMap b.Cakes) x.Name with
    | none => exact absurd hg (hrem x hx)
    | some y =>
      obtain ⟨hy, hname⟩ := mapGet_keyed_some _ _ _ _ hg
      obtain ⟨n, hn⟩ := List.mem_iff_get.1 hx
      have hsh := hshared n.1 n.2
      rw [show (⟨n.1, n.2⟩ : Fin a.Cakes.length) = n from rfl, hn] at hsh
      have := (sharedCake_eq_nil_iff _ _ _ y hg).1 hsh
      exact ⟨y, hy, rfl, hname.symm, this.1,
        perm_of_compareIngredients_eq_nil _ (hr n.1) _ _ _ (ha2 _ hx) (hb2 _ hy) this.2⟩
  refine ⟨a.Cakes.map fun x => (mapGet (cakeMap b.Cakes) x.Name).getD x, ?_, ?_⟩
  · have hmapnames : (a.Cakes.map fun x => (mapGet (cakeMap b.Cakes) x.Name).getD x).map
        Cake.Name = a.Cakes.map Cake.Name := by
      rw [List.map_map]
      apply List.map_congr_left
      intro x hx
      obtain ⟨y, _, hg, hs⟩ := partner x hx
      simp only [Function.comp, hg, Option.getD_some]
      exact hs.1.symm
    refine (List.perm_ext_iff_of_nodup (List.Nodup.of_map Cake.Name ?_)
      (List.Nodup.of_map _ hb1)).2 fun y => ⟨fun hy => ?_, fun hy => ?_⟩
    · rw [hmapnames]; exact ha1
    · obtain ⟨x, hx, rfl⟩ := List.mem_map.1 hy
      obtain ⟨y, hy', hg, _⟩ := partner x hx
      simpa [hg] using hy'
    · cases hg : mapGet (cakeMap a.Cakes) y.Name with
      | none => exact absurd hg (hadd y hy)
      | some x =>
        obtain ⟨hx, hname⟩ := mapGet_keyed_some _ _ _ _ hg
        obtain ⟨y', hy', hg', hs⟩ := partner x hx
        have : y' = y := List.inj_on_of_nodup_map hb1 hy' hy (hs.1.symm.trans hname)
        subst this
        exact List.mem_map.2 ⟨x, hx, by simp [hg']⟩
  · rw [List.forall₂_map_right_iff]
    refine List.forall₂_same.2 fun x hx => ?_
    obtain ⟨y, _, hg, hs⟩ := partner x hx
    simpa [hg] using hs


/-! ## The shape of the report -/

theorem flatMap_absent_eq_filter {α β : Type} (key : β → String) (key' : α → String)
    (l : List α) (l' : List β) (f : α → String) :
    (l.flatMap fun x => if (mapGet (keyed key l') (key' x)).isNone then [f x] else []) =
      (l.filter fun x => decide (key' x ∉ l'.map key)).map f := by
  induction l with
  | nil => rfl
  | cons x rest ih =>
    rw [List.flatMap_cons, ih, List.filter_cons]
    by_cases h : key' x ∈ l'.map key
    · have : mapGet (keyed key l') (key' x) ≠ none := by
        rw [Ne, mapGet_keyed_eq_none, not_not]; exact h
      cases hg : mapGet (keyed key l') (key' x) with
      | none => exact absurd hg this
      | some y => simp [h]
    · have : mapGet (keyed key l') (key' x) = none := (mapGet_keyed_eq_none _ _ _).2 h
      simp [h, this]

theorem sharedCakes_eq_enumFrom (ranges : Nat → Range Ingredient) (m : GoMap Cake)
    (cakes : List Cake) (i : Nat) :
    sharedCakes ranges m i cakes =
      (cakes.enumFrom i).flatMap fun p => sharedCake (ranges p.1) m p.2 := by
  induction cakes generalizing i with
  | nil => rfl
  | cons c rest ih => simp [sharedCakes, List.enumFrom_cons, ih]

/-- C1: for every collection whose cake names are pairwise distinct and whose
ingredient names are pairwise distinct within each cake, comparing the collection with
itself emits no record, whatever the order in which the maps are iterated. -/
theorem C1_identity_emits_nothing (ranges : Nat → Range Ingredient) (hr : RangesOK ranges)
    (r : Recipes) (h1 : CakeNamesUnique r) (h2 : IngredientNamesUnique r) :
    CompareDatabases ranges r r = [] :=
  CompareDatabases_reordered ranges hr r r h1 h2 (reordered_refl r)

theorem C1_identity_emits_nothing_witness :
    CakeNamesUnique scenarioOld ∧ IngredientNamesUnique scenarioOld ∧
      CompareDatabases (fun _ => insertionOrder) scenarioOld scenarioOld = [] :=
  ⟨by decide, by decide,
    C1_identity_emits_nothing (fun _ => insertionOrder) (fun _ m => List.Perm.refl m)
      scenarioOld (by decide) (by decide)⟩

/-- C2: for collections `a` and `b` that satisfy the uniqueness invariants, if
`CompareDatabases a b` emits no record then the cakes of `b` are a rearrangement of the
cakes of `a` in which matched cakes have the same name, the same time and ingredient
lists that are rearrangements of one another (equal name, count and unit). -/
theorem C2_empty_report_means_equal_up_to_order (ranges : Nat → Range Ingredient)
    (hr : RangesOK ranges) (a b : Recipes)
    (ha1 : CakeNamesUnique a) (ha2 : IngredientNamesUnique a)
    (hb1 : CakeNamesUnique b) (hb2 : IngredientNamesUnique b)
    (h : CompareDatabases ranges a b = []) :
    ∃ cakes : List Cake, cakes.Perm b.Cakes ∧
      List.Forall₂ (fun x y => x.Name = y.Name ∧ x.Time = y.Time ∧
        x.Ingredients.Perm y.Ingredients) a.Cakes cakes :=
  reordered_of_CompareDatabases_eq_nil ranges hr a b ha1 ha2 hb1 hb2 h

theorem C2_empty_report_means_equal_up_to_order_witness :
    CompareDatabases (fun _ => reverseOrder) scenarioOld scenarioOldShuffled = [] ∧
    ∃ cakes : List Cake, cakes.Perm scenarioOldShuffled.Cakes ∧
      List.Forall₂ (fun x y => x.Name = y.Name ∧ x.Time = y.Time ∧
        x.Ingredients.Perm y.Ingredients) scenarioOld.Cakes cakes :=
  ⟨by decide,
    C2_empty_report_means_equal_up_to_order (fun _ => reverseOrder)
      (fun _ m => List.reverse_perm m) scenarioOld scenarioOldShuffled
      (by decide) (by decide) (by decide) (by decide) (by decide)⟩

/-- C3: for every collection `a` that satisfies the uniqueness invariants and every `b`
obtained from `a` by reordering its cakes and reordering the ingredients inside each
cake, `CompareDatabases a b` emits no record. -/
theorem C3_order_is_not_significant (ranges : Nat → Range Ingredient) (hr : RangesOK ranges)
    (a b : Recipes) (h1 : CakeNamesUnique a) (h2 : IngredientNamesUnique a)
    (h : Reordered a b) : CompareDatabases ranges a b = [] :=
  CompareDatabases_reordered ranges hr a b h1 h2 h

theorem C3_order_is_not_significant_witness :
    Reordered scenarioOld scenarioOldShuffled ∧
      CompareDatabases (fun _ => reverseOrder) scenarioOld scenarioOldShuffled = [] :=
  have h : Reordered scenarioOld scenarioOldShuffled :=
    ⟨scenarioOldShuffled.Cakes.reverse, List.reverse_perm _,
      List.Forall₂.cons ⟨rfl, rfl, by decide⟩
        (List.Forall₂.cons ⟨rfl, rfl, by decide⟩ List.Forall₂.nil)⟩
  ⟨h, C3_order_is_not_significant (fun _ => reverseOrder) (fun _ m => List.reverse_perm m)
    scenarioOld scenarioOldShuffled (by decide) (by decide) h⟩

theorem sharedIngredient_eq_sharedRecords (cake : String) (new : List Ingredient)
    (e : String × Ingredient) :
    sharedIngredient cake (ingredientMap new) e = sharedRecords cake new e := by
  have hg : mapGet (ingredientMap new) e.1 = lastIngredient new e.1 := by
    rw [ingredientMap_eq, mapGet_keyed]; rfl
  unfold sharedIngredient sharedRecords
  dsimp only
  rw [hg]
  cases lastIngredient new e.1 with
  | none => rfl
  | some n =>
    simp only [countRecord, unitRecord, ne_eq, ite_not]

theorem compareIngredients_eq (range : Range Ingredient) (cake : String)
    (old new : List Ingredient) :
    compareIngredients range cake old new =
      (new.filter fun n => decide (n.Name ∉ old.map Ingredient.Name)).map
        (fun n => addedIngredient n.Name cake)
      ++ (old.filter fun o => decide (o.Name ∉ new.map Ingredient.Name)).map
        (fun o => removedIngredient o.Name cake)
      ++ (range (ingredientMap old)).flatMap (sharedRecords cake new) := by
  unfold compareIngredients
  simp only [ingredientMap_eq, flatMap_absent_eq_filter]
  congr 1
  apply List.flatMap_congr
  intro e _
  exact sharedIngredient_eq_sharedRecords cake new e

/-- The bindings of the map of a list: one per name, holding the last ingredient of
that name. -/
theorem mem_ingredientMap_iff (l : List Ingredient) (k : String) (o : Ingredient) :
    (k, o) ∈ ingredientMap l ↔ lastIngredient l k = some o := by
  rw [ingredientMap_eq, ← mapGet_eq_some_iff_mem _ (keyed_nodup _ _), mapGet_keyed]
  rfl

/-- C6: on the scenario, the report is the nine expected lines when the old ingredient
map is iterated in insertion order, but another admissible iteration order of the same
map prints the records of `Flour` after those of `Strawberries` and `Cinnamon`, although
`Flour` comes first in the old cake: the order of the count and unit records follows
the map iteration, not the old cake. -/
theorem C6_shared_records_follow_map_iteration :
    RangesOK (fun _ => @rotatedOrder Ingredient) ∧
    CompareDatabases (fun _ => insertionOrder) scenarioOld scenarioNew = scenarioExpected ∧
    CompareDatabases (fun _ => rotatedOrder) scenarioOld scenarioNew = scenarioRotated ∧
    scenarioRotated ≠ scenarioExpected :=
  ⟨fun _ m => List.rotate_perm m 1, by decide, by decide, by decide⟩

theorem mapGet_ne_none_iff {V : Type} (m : GoMap V) (k : String) :
    mapGet m k ≠ none ↔ k ∈ mapKeys m := by
  induction m with
  | nil => simp [mapGet, mapKeys]
  | cons e rest ih =>
    obtain ⟨k0, v0⟩ := e
    by_cases h : k0 = k
    · simp [mapGet, mapKeys, h]
    · have h' : ¬ k = k0 := fun e => h e.symm
      simp only [mapGet, if_neg h, ih, mapKeys, List.map_cons, List.mem_cons, h', false_or]

theorem mapGet_isNone_iff {V : Type} (m : GoMap V) (k : String) :
    (mapGet m k).isNone = true ↔ k ∉ mapKeys m := by
  rw [← mapGet_ne_none_iff, not_not, Option.isNone_iff_eq_none]

theorem mapKeys_mapDelete {V : Type} (m : GoMap V) (k : String) :
    mapKeys (mapDelete m k) = (mapKeys m).erase k := by
  induction m with
  | nil => rfl
  | cons e rest ih =>
    obtain ⟨k0, v0⟩ := e
    by_cases h : k0 = k
    · subst h
      simp [mapDelete, mapKeys]
    · have hb : (k0 == k) = false := by simpa using h
      simp only [mapDelete, if_neg h, mapKeys, List.map_cons, List.erase_cons, hb]
      simpa [mapKeys] using ih

theorem mem_mapKeys_mapSet {V : Type} (m : GoMap V) (k : String) (v : V) (s : String) :
    s ∈ mapKeys (mapSet m k v) ↔ s = k ∨ s ∈ mapKeys m := by
  rw [← mapGet_ne_none_iff, mapGet_mapSet, ← mapGet_ne_none_iff]
  by_cases h : k = s
  · simp [h]
  · have h' : ¬ s = k := fun e => h e.symm
    simp [h, h']

theorem lineSet_append_singleton (l : List String) (x : String) :
    lineSet (l ++ [x]) = mapSet (lineSet l) x () := by
  simp [lineSet, List.foldl_append]

theorem lineSet_nodup (l : List String) : (mapKeys (lineSet l)).Nodup := by
  induction l using List.reverseRecOn with
  | nil => simp [lineSet, mapKeys]
  | append_singleton l x ih =>
    rw [lineSet_append_singleton]
    exact mapKeys_mapSet_nodup _ _ _ ih

theorem mem_lineSet (l : List String) (s : String) : s ∈ mapKeys (lineSet l) ↔ s ∈ l := by
  induction l using List.reverseRecOn with
  | nil => simp [lineSet, mapKeys]
  | append_singleton l x ih =>
    rw [lineSet_append_singleton, mem_mapKeys_mapSet, ih, List.mem_append,
      List.mem_singleton, or_comm]

theorem scanNew_keys_nodup (m : GoMap Unit) (lines : List String) (h : (mapKeys m).Nodup) :
    (mapKeys (scanNew m lines).2).Nodup := by
  induction lines generalizing m with
  | nil => exact h
  | cons line rest ih =>
    simp only [scanNew]
    exact ih _ (by rw [mapKeys_mapDelete]; exact h.erase _)

theorem mem_scanNew_keys (m : GoMap Unit) (lines : List String) (h : (mapKeys m).Nodup)
    (s : String) : s ∈ mapKeys (scanNew m lines).2 ↔ s ∈ mapKeys m ∧ s ∉ lines := by
  induction lines generalizing m with
  | nil => simp [scanNew]
  | cons line rest ih =>
    simp only [scanNew]
    rw [ih _ (by rw [mapKeys_mapDelete]; exact h.erase _), mapKeys_mapDelete,
      h.mem_erase_iff, List.mem_cons, not_or]
    tauto

/-- When no line of the set occurs twice in the new file, the `ADDED` lines are the
lines of the new file that are not in the set. -/
theorem scanNew_printed (m : GoMap Unit) (lines : List String) (h : (mapKeys m).Nodup)
    (hc : ∀ s ∈ mapKeys m, lines.count s ≤ 1) :
    (scanNew m lines).1 =
      (lines.filter fun l => decide (l ∉ mapKeys m)).map addedLine := by
  induction lines generalizing m with
  | nil => rfl
  | cons line rest ih =>
    have hnd' : (mapKeys (mapDelete m line)).Nodup := by
      rw [mapKeys_mapDelete]; exact h.erase _
    have hc' : ∀ s ∈ mapKeys (mapDelete m line), rest.count s ≤ 1 := by
      intro s hs
      rw [mapKeys_mapDelete, h.mem_erase_iff] at hs
      have := hc s hs.2
      rw [List.count_cons] at this
      omega
    have hfilter : (rest.filter fun l => decide (l ∉ mapKeys (mapDelete m line))) =
        rest.filter fun l => decide (l ∉ mapKeys m) := by
      apply List.filter_congr
      intro l hl
      rw [mapKeys_mapDelete, decide_eq_decide, h.mem_erase_iff]
      constructor
      · intro hn hm
        apply hn
        refine ⟨fun e => ?_, hm⟩
        subst e
        have := hc l hm
        rw [List.count_cons_self] at this
        have hpos : 0 < rest.count l := List.count_pos_iff.2 hl
        omega
      · intro hn hm
        exact hn hm.2
    simp only [scanNew]
    rw [ih _ hnd' hc', hfilter, List.filter_cons]
    by_cases hm : line ∈ mapKeys m
    · have : (mapGet m line).isNone = false := by
        rw [← Bool.not_eq_true, mapGet_isNone_iff, not_not]; exact hm
      simp [this, hm]
    · have : (mapGet m line).isNone = true := (mapGet_isNone_iff _ _).2 hm
      simp [this, hm]

theorem addedLine_ne_removedLine (s t : String) : addedLine s ≠ removedLine t := by
  intro h
  have := congrArg String.data h
  simp [addedLine, removedLine, String.data_append] at this

theorem addedLine_injective : Function.Injective addedLine := by
  intro s t h
  have := congrArg String.data h
  simp only [addedLine, String.data_append, List.append_assoc, List.append_cancel_left_eq,
    List.append_cancel_right_eq] at this
  exact String.ext this

theorem removedLine_injective : Function.Injective removedLine := by
  intro s t h
  have := congrArg String.data h
  simp only [removedLine, String.data_append, List.append_assoc, List.append_cancel_left_eq,
    List.append_cancel_right_eq] at this
  exact String.ext this

/-- The `ADDED` lines of the loop over the new file, for every input: they are the
`ADDED` lines of a list `a` of lines of the new file, in the order of the file, that
contains every line of the new file that is not in the set; without a repeated line of
the set, `a` contains nothing else. -/
theorem scanNew_printed_general (m : GoMap Unit) (lines : List String)
    (h : (mapKeys m).Nodup) :
    ∃ a : List String, (scanNew m lines).1 = a.map addedLine ∧
      (lines.filter fun l => decide (l ∉ mapKeys m)).Sublist a ∧ a.Sublist lines ∧
      ((∀ s ∈ mapKeys m, lines.count s ≤ 1) →
        a = lines.filter fun l => decide (l ∉ mapKeys m)) := by
  have hall : ∀ (lines : List String) (m : GoMap Unit), (mapKeys m).Nodup →
      ∃ a : List String, (scanNew m lines).1 = a.map addedLine ∧
        (lines.filter fun l => decide (l ∉ mapKeys m)).Sublist a ∧ a.Sublist lines := by
    intro lines
    induction lines with
    | nil => exact fun m _ => ⟨[], rfl, List.Sublist.refl _, List.Sublist.refl _⟩
    | cons line rest ih =>
      intro m hm
      have hnd' : (mapKeys (mapDelete m line)).Nodup := by
        rw [mapKeys_mapDelete]; exact hm.erase _
      obtain ⟨a', ha1, ha2, ha3⟩ := ih (mapDelete m line) hnd'
      have hmono : (rest.filter fun l => decide (l ∉ mapKeys m)).Sublist
          (rest.filter fun l => decide (l ∉ mapKeys (mapDelete m line))) := by
        apply List.monotone_filter_right
        intro l hl
        simp only [decide_eq_true_eq] at hl ⊢
        rw [mapKeys_mapDelete]
        exact fun hmem => hl (List.mem_of_mem_erase hmem)
      simp only [scanNew]
      by_cases hin : line ∈ mapKeys m
      · have hnone : (mapGet m line).isNone = false := by
          rw [← Bool.not_eq_true, mapGet_isNone_iff, not_not]; exact hin
        refine ⟨a', by simp [hnone, ha1], ?_, ha3.cons line⟩
        rw [List.filter_cons]
        simp only [hin, not_true_eq_false, decide_False, Bool.false_eq_true, if_false]
        exact hmono.trans ha2
      · have hnone : (mapGet m line).isNone = true := (mapGet_isNone_iff _ _).2 hin
        refine ⟨line :: a', by simp [hnone, ha1], ?_, ha3.cons₂ line⟩
        rw [List.filter_cons]
        simp only [hin, not_false_eq_true, decide_True, if_true]
        exact (hmono.trans ha2).cons₂ line
  obtain ⟨a, ha1, ha2, ha3⟩ := hall lines m h
  refine ⟨a, ha1, ha2, ha3, fun hc => ?_⟩
  have := scanNew_printed m lines h hc
  rw [ha1] at this
  exact List.map_injective_iff.2 addedLine_injective this

/-- The report of `CompareFileSystems` when the old file is read to the end and the
scanner of the new file yields `new` and stops with `err`: the `ADDED` lines of a list
`a` of lines of the new file, then, when `err` is `none`, one `REMOVED` line per line
left in the set. -/
theorem CompareFileSystems_eq (range : Range Unit) (old new : List String)
    (err : Option String) :
    ∃ a : List String,
      CompareFileSystems range (.scanned old none) (.scanned new err) =
        (a.map addedLine
          ++ (if err = none then (range (scanNew (lineSet old) new).2).map Prod.fst
              else []).map removedLine,
          err.map fun e => "error reading new file " ++ e) ∧
      (new.filter fun s => decide (s ∉ old)).Sublist a ∧ a.Sublist new ∧
      ((∀ s ∈ old, new.count s ≤ 1) → a = new.filter fun s => decide (s ∉ old)) := by
  obtain ⟨a, ha1, ha2, ha3, ha4⟩ := scanNew_printed_general (lineSet old) new (lineSet_nodup old)
  have hf : (new.filter fun l => decide (l ∉ mapKeys (lineSet old))) =
      new.filter fun s => decide (s ∉ old) :=
    List.filter_congr fun l _ => by
      rw [decide_eq_decide]; exact not_congr (mem_lineSet old l)
  rw [hf] at ha2 ha4
  refine ⟨a, ?_, ha2, ha3, fun hc => ha4 fun s hs => hc s ((mem_lineSet old s).1 hs)⟩
  cases err with
  | none =>
    simp only [CompareFileSystems, ha1, List.map_map, if_true, Option.map_none']
    rfl
  | some e => simp [CompareFileSystems, ha1]

/-- The lines left in the set after the new file was read: each once, and exactly the
lines of the old file that do not occur in the new file. -/
theorem remaining_lines (range : Range Unit) (hr : RangeOK range) (old new : List String) :
    ((range (scanNew (lineSet old) new).2).map Prod.fst).Nodup ∧
    ∀ s, s ∈ (range (scanNew (lineSet old) new).2).map Prod.fst ↔ s ∈ old ∧ s ∉ new := by
  have hp : ((range (scanNew (lineSet old) new).2).map Prod.fst).Perm
      (mapKeys (scanNew (lineSet old) new).2) := (hr _).map Prod.fst
  refine ⟨hp.nodup_iff.2 (scanNew_keys_nodup _ _ (lineSet_nodup old)), fun s => ?_⟩
  rw [hp.mem_iff, mem_scanNew_keys _ _ (lineSet_nodup old), mem_lineSet]

/-- What is printed is always a run of `ADDED` lines followed by a run of `REMOVED`
lines. -/
theorem CompareFileSystems_added_then_removed (range : Range Unit)
    (oldFile newFile : ScanResult) :
    ∃ a r : List String,
      (CompareFileSystems range oldFile newFile).1 = a.map addedLine ++ r.map removedLine := by
  cases oldFile with
  | openError msg => exact ⟨[], [], rfl⟩
  | scanned old oldErr =>
    cases oldErr with
    | some e => exact ⟨[], [], rfl⟩
    | none =>
      cases newFile with
      | openError msg => exact ⟨[], [], rfl⟩
      | scanned new newErr =>
        obtain ⟨a, ha1, _⟩ :=
          scanNew_printed_general (lineSet old) new (lineSet_nodup old)
        cases newErr with
        | some e => exact ⟨a, [], by simp [CompareFileSystems, ha1]⟩
        | none =>
          exact ⟨a, (range (scanNew (lineSet old) new).2).map Prod.fst, by
            simp only [CompareFileSystems, ha1, List.map_map]; rfl⟩

/-- C9 (as stated, refuted): the line `b` occurs in the old file `[b]`, yet for the new
file `[b, b]` the line `ADDED b` is printed: the first `b` removes the line from the
set, so the second one is no longer found. And when the scanner of the old file stops
with an error after the line `a`, nothing is printed for the line `b` of the new file,
which does not occur in the old file. -/
theorem C9_counterexample :
    "b" ∈ ["b"] ∧
    (∀ range : Range Unit, RangeOK range →
      CompareFileSystems range (.scanned ["b"] none) (.scanned ["b", "b"] none) =
        (["ADDED b\n"], none)) ∧
    (∀ range : Range Unit,
      CompareFileSystems range (.scanned ["a"] (some "bufio.Scanner: token too long"))
          (.scanned ["b"] none) =
        ([], some "error reading old file bufio.Scanner: token too long")) := by
  refine ⟨by decide, fun range hr => ?_, fun range => rfl⟩
  have h : range [] = [] := List.Perm.eq_nil (hr [])
  simp [CompareFileSystems, scanNew, lineSet, mapSet, mapGet, mapDelete, addedLine, h]

/-- C9 (amended): whatever the two files, what is printed is a run of `ADDED` lines
followed by a run of `REMOVED` lines, and no `ADDED` line is a `REMOVED` line. When the
old file is read to the end without error, with line list `old`, and `new` is the list
of the lines read from the new file, the `ADDED` lines are those of a list `a` of lines
of `new`, in the order of `new`, that contains every line of `new` that does not occur
in `old`; and when no line of `old` occurs more than once in `new`, `a` is exactly the
list of the lines of `new` that do not occur in `old`. For old `[a, b, c]` and new
`[b, e, c, d, e]` the first three lines printed are `ADDED e`, `ADDED d`, `ADDED e`. -/
theorem C9_added_lines_in_new_file_order (range : Range Unit) :
    (∀ oldFile newFile : ScanResult, ∃ a r : List String,
      (CompareFileSystems range oldFile newFile).1 =
        a.map (fun s => "ADDED " ++ s ++ "\n") ++ r.map (fun s => "REMOVED " ++ s ++ "\n")) ∧
    (∀ s t : String, "ADDED " ++ s ++ "\n" ≠ "REMOVED " ++ t ++ "\n") ∧
    (∀ (old new : List String) (err : Option String), ∃ a r : List String,
      CompareFileSystems range (.scanned old none) (.scanned new err) =
        (a.map (fun s => "ADDED " ++ s ++ "\n") ++ r.map (fun s => "REMOVED " ++ s ++ "\n"),
          err.map fun e => "error reading new file " ++ e) ∧
      (new.filter fun s => decide (s ∉ old)).Sublist a ∧ a.Sublist new ∧
      ((∀ s ∈ old, new.count s ≤ 1) → a = new.filter fun s => decide (s ∉ old))) ∧
    (CompareFileSystems range (.scanned ["a", "b", "c"] none)
        (.scanned ["b", "e", "c", "d", "e"] none)).1.take 3 =
      ["ADDED e\n", "ADDED d\n", "ADDED e\n"] := by
  refine ⟨CompareFileSystems_added_then_removed range, addedLine_ne_removedLine,
    fun old new err => ?_, ?_⟩
  · obtain ⟨a, ha1, ha2, ha3, ha4⟩ := CompareFileSystems_eq range old new err
    exact ⟨a, _, ha1, ha2, ha3, ha4⟩
  · simp [CompareFileSystems, scanNew, lineSet, mapSet, mapGet, mapDelete, addedLine]

/-- C10 (as stated, refuted): the line `y` occurs in both files `[x, y]` and
`[y, z, y]`, yet `ADDED y` is printed. When the scanner of the new file stops with an
error before it yields a line, `REMOVED a` is not printed for the line `a` of the old
file. When the scanner of the old file stops with an error, `ADDED d` is not printed
for the line `d` of the new file. -/
theorem C10_counterexample :
    "y" ∈ ["x", "y"] ∧ "y" ∈ ["y", "z", "y"] ∧
    (∀ range : Range Unit, RangeOK range →
      CompareFileSystems range (.scanned ["x", "y"] none) (.scanned ["y", "z", "y"] none) =
        (["ADDED z\n", "ADDED y\n", "REMOVED x\n"], none)) ∧
    (∀ range : Range Unit,
      CompareFileSystems range (.scanned ["a"] none)
          (.scanned [] (some "bufio.Scanner: token too long")) =
        ([], some "error reading new file bufio.Scanner: token too long")) ∧
    (∀ range : Range Unit,
      CompareFileSystems range (.scanned ["c"] (some "bufio.Scanner: token too long"))
          (.scanned ["d"] none) =
        ([], some "error reading old file bufio.Scanner: token too long")) := by
  refine ⟨by decide, by decide, fun range hr => ?_, fun range => rfl, fun range => rfl⟩
  have h : range [("x", ())] = [("x", ())] := List.perm_singleton.1 (hr _)
  simp [CompareFileSystems, scanNew, lineSet, mapSet, mapGet, mapDelete, addedLine,
    removedLine, h]

/-- C10 (amended): let the old file be read to the end without error, with line list
`old`, and let `new` be the list of the lines read from the new file, the scanner
stopping with `err`. Then `ADDED s` is printed when `s` occurs in `new` and not in
`old`; no line is printed in both categories; a line that occurs in both lists is not
printed as `REMOVED`. When the new file is read to the end (`err` is `none`),
`REMOVED s` is printed once when `s` occurs in `old` and not in `new` and is not printed
otherwise. When no line of `old` occurs more than once in `new`, `ADDED s` is printed
only when `s` occurs in `new` and not in `old`, so a line that occurs in both lists is
printed in neither category. For old `[a, b, c]` and new `[b, c, d]` the report is
`ADDED d` then `REMOVED a`. -/
theorem C10_symmetric_difference (range : Range Unit) (hr : RangeOK range)
    (old new : List String) (err : Option String) :
    (∃ out : List String,
      CompareFileSystems range (.scanned old none) (.scanned new err) =
        (out, err.map fun e => "error reading new file " ++ e) ∧
      ∀ s : String,
        (s ∈ new → s ∉ old → "ADDED " ++ s ++ "\n" ∈ out) ∧
        ¬ ("ADDED " ++ s ++ "\n" ∈ out ∧ "REMOVED " ++ s ++ "\n" ∈ out) ∧
        (s ∈ old → s ∈ new → "REMOVED " ++ s ++ "\n" ∉ out) ∧
        (err = none →
          out.count ("REMOVED " ++ s ++ "\n") = if s ∈ old ∧ s ∉ new then 1 else 0) ∧
        ((∀ t ∈ old, new.count t ≤ 1) →
          ("ADDED " ++ s ++ "\n" ∈ out ↔ s ∈ new ∧ s ∉ old) ∧
          (s ∈ old → s ∈ new →
            "ADDED " ++ s ++ "\n" ∉ out ∧ "REMOVED " ++ s ++ "\n" ∉ out))) ∧
    CompareFileSystems range (.scanned ["a", "b", "c"] none) (.scanned ["b", "c", "d"] none) =
      (["ADDED d\n", "REMOVED a\n"], none) := by
  obtain ⟨hnd, hmem⟩ := remaining_lines range hr old new
  obtain ⟨a, heq, hsub1, hsub2, hexact⟩ := CompareFileSystems_eq range old new err
  have hadd : ∀ s, addedLine s ∈ a.map addedLine
        ++ (if err = none then (range (scanNew (lineSet old) new).2).map Prod.fst
            else []).map removedLine ↔ s ∈ a := by
    intro s
    rw [List.mem_append, List.mem_map_of_injective addedLine_injective]
    constructor
    · rintro (h1 | h1)
      · exact h1
      · obtain ⟨t, _, ht⟩ := List.mem_map.1 h1
        exact absurd ht.symm (addedLine_ne_removedLine s t)
    · exact Or.inl
  have hrem : ∀ s, removedLine s ∈ a.map addedLine
        ++ (if err = none then (range (scanNew (lineSet old) new).2).map Prod.fst
            else []).map removedLine → s ∈ old ∧ s ∉ new := by
    intro s hs
    rcases List.mem_append.1 hs with h1 | h1
    · obtain ⟨t, _, ht⟩ := List.mem_map.1 h1
      exact absurd ht (addedLine_ne_removedLine t s)
    · rw [List.mem_map_of_injective removedLine_injective] at h1
      split at h1
      · exact (hmem s).1 h1
      · simp at h1
  refine ⟨⟨_, heq, fun s => ⟨?_, ?_, ?_, ?_, ?_⟩⟩, ?_⟩
  · intro h1 h2
    exact (hadd s).2 (hsub1.subset (List.mem_filter.2 ⟨h1, by simpa using h2⟩))
  · rintro ⟨h1, h2⟩
    exact (hrem s h2).2 (hsub2.subset ((hadd s).1 h1))
  · intro _ h2 hm
    exact (hrem s hm).2 h2
  · intro herr
    have h0 : List.count (removedLine s) (a.map addedLine) = 0 := by
      rw [List.count_eq_zero]
      intro hm
      obtain ⟨t, _, ht⟩ := List.mem_map.1 hm
      exact addedLine_ne_removedLine t s ht
    show List.count (removedLine s) _ = _
    rw [List.count_append, h0, Nat.zero_add, if_pos herr,
      List.count_map_of_injective _ _ removedLine_injective]
    by_cases hs : s ∈ old ∧ s ∉ new
    · rw [if_pos hs]
      exact List.count_eq_one_of_mem hnd ((hmem s).2 hs)
    · rw [if_neg hs, List.count_eq_zero]
      exact fun hm => hs ((hmem s).1 hm)
  · intro hc
    have hiff : addedLine s ∈ a.map addedLine
          ++ (if err = none then (range (scanNew (lineSet old) new).2).map Prod.fst
              else []).map removedLine ↔ s ∈ new ∧ s ∉ old := by
      rw [hadd s, hexact hc, List.mem_filter]
      simp
    exact ⟨hiff, fun h1 h2 => ⟨fun hm => (hiff.1 hm).2 h1, fun hm => (hrem s hm).2 h2⟩⟩
  · have hx : range [("a", ())] = [("a", ())] := List.perm_singleton.1 (hr _)
    simp [CompareFileSystems, scanNew, lineSet, mapSet, mapGet, mapDelete, addedLine,
      removedLine, hx]

theorem C10_symmetric_difference_witness :
    (∃ out : List String,
      CompareFileSystems reverseOrder (.scanned ["a", "b", "c"] none)
        (.scanned ["b", "c", "d"] none) =
          (out, (none : Option String).map fun e => "error reading new file " ++ e) ∧
      ∀ s : String,
        (s ∈ ["b", "c", "d"] → s ∉ ["a", "b", "c"] → "ADDED " ++ s ++ "\n" ∈ out) ∧
        ¬ ("ADDED " ++ s ++ "\n" ∈ out ∧ "REMOVED " ++ s ++ "\n" ∈ out) ∧
        (s ∈ ["a", "b", "c"] → s ∈ ["b", "c", "d"] → "REMOVED " ++ s ++ "\n" ∉ out) ∧
        ((none : Option String) = none →
          out.count ("REMOVED " ++ s ++ "\n") =
            if s ∈ ["a", "b", "c"] ∧ s ∉ ["b", "c", "d"] then 1 else 0) ∧
        ((∀ t ∈ ["a", "b", "c"], ["b", "c", "d"].count t ≤ 1) →
          ("ADDED " ++ s ++ "\n" ∈ out ↔ s ∈ ["b", "c", "d"] ∧ s ∉ ["a", "b", "c"]) ∧
          (s ∈ ["a", "b", "c"] → s ∈ ["b", "c", "d"] →
            "ADDED " ++ s ++ "\n" ∉ out ∧ "REMOVED " ++ s ++ "\n" ∉ out))) ∧
    CompareFileSystems reverseOrder (.scanned ["a", "b", "c"] none)
        (.scanned ["b", "c", "d"] none) =
      (["ADDED d\n", "REMOVED a\n"], none) :=
  C10_symmetric_difference reverseOrder (fun m => List.reverse_perm m)
    ["a", "b", "c"] ["b", "c", "d"] none

/-! ## Facts about `removeJSONComments` -/

/-- One step of the loop, in a form that does not distinguish the last byte. -/
theorem removeLoop_cons (s : Bool) (x : Nat) (l : List Nat) :
    removeLoop s (x :: l) =
      if x = 47 ∧ l.head? = some 47 then removeLoop true l.tail
      else written s x ++ removeLoop (flagAfter s x) l := by
  cases l with
  | nil => simp [removeLoop]
  | cons y l' => simp [removeLoop]

theorem flagAfter_false (x : Nat) : flagAfter false x = false := by
  simp [flagAfter]

theorem written_false (x : Nat) : written false x = [x] := by
  simp [written, flagAfter]

theorem written_true (x : Nat) (h : x ≠ 10 ∧ x ≠ 13) :
    written true x = [] ∧ flagAfter true x = true := by
  simp [written, flagAfter, h.1, h.2]

theorem written_break (s : Bool) (t : Nat) (h : t = 10 ∨ t = 13) :
    written s t = [t] ∧ flagAfter s t = false := by
  cases s <;> rcases h with h | h <;> simp [written, flagAfter, h]

theorem written_sublist (s : Bool) (x : Nat) : (written s x).Sublist [x] := by
  unfold written
  split
  · exact List.Sublist.refl _
  · exact List.nil_sublist _

/-- Inside a comment, everything up to the next line break is skipped. -/
theorem removeLoop_comment_body (b c : List Nat) (hb : NoLineBreak b)
    (hc : c = [] ∨ ∃ t c', c = t :: c' ∧ (t = 10 ∨ t = 13)) :
    removeLoop true (b ++ c) = removeLoop false c := by
  suffices h : ∀ n (b : List Nat), b.length ≤ n → NoLineBreak b →
      removeLoop true (b ++ c) = removeLoop false c from h _ b le_rfl hb
  clear hb b
  intro n
  induction n with
  | zero =>
    intro b hn _
    have hb0 : b = [] := List.length_eq_zero.1 (Nat.le_zero.1 hn)
    subst hb0
    rcases hc with rfl | ⟨t, c', rfl, ht⟩
    · rfl
    · have h47 : t ≠ 47 := by rcases ht with h | h <;> omega
      simp only [List.nil_append, removeLoop_cons, h47, false_and, if_false,
        (written_break true t ht).1, (written_break true t ht).2,
        (written_break false t ht).1, (written_break false t ht).2]
  | succ n ih =>
    intro b hn hb
    cases b with
    | nil =>
      rcases hc with rfl | ⟨t, c', rfl, ht⟩
      · rfl
      · have h47 : t ≠ 47 := by rcases ht with h | h <;> omega
        simp only [List.nil_append, removeLoop_cons, h47, false_and, if_false,
          (written_break true t ht).1, (written_break true t ht).2,
          (written_break false t ht).1, (written_break false t ht).2]
    | cons x b' =>
      have hx := hb x (List.mem_cons_self _ _)
      have hb' : NoLineBreak b' := fun y hy => hb y (List.mem_cons_of_mem _ hy)
      rw [List.cons_append, removeLoop_cons]
      split
      · rename_i hpair
        cases b' with
        | nil =>
          rcases hc with rfl | ⟨t, c', rfl, ht⟩
          · simp at hpair
          · have h47 : t ≠ 47 := by rcases ht with h | h <;> omega
            simp [h47] at hpair
        | cons y b'' =>
          simp only [List.cons_append, List.tail_cons]
          exact ih b'' (by simp at hn; omega)
            (fun z hz => hb' z (List.mem_cons_of_mem _ hz))
      · rw [(written_true x hx).1, (written_true x hx).2, List.nil_append]
        exact ih b' (by simp at hn; omega) hb'

/-- The report of the loop on a sequence that contains `//`: what is written up to and
including the `//`, then what the loop writes from the end of the comment. -/
theorem removeLoop_comment (s : Bool) (a b c : List Nat) (hb : NoLineBreak b)
    (hc : c = [] ∨ ∃ t c', c = t :: c' ∧ (t = 10 ∨ t = 13)) :
    removeLoop s (a ++ 47 :: 47 :: (b ++ c)) =
      removeLoop s (a ++ [47, 47]) ++ removeLoop false c := by
  suffices h : ∀ n (a : List Nat) (s : Bool), a.length ≤ n →
      removeLoop s (a ++ 47 :: 47 :: (b ++ c)) =
        removeLoop s (a ++ [47, 47]) ++ removeLoop false c from h _ a s le_rfl
  clear s a
  intro n
  induction n with
  | zero =>
    intro a s hn
    have ha0 : a = [] := List.length_eq_zero.1 (Nat.le_zero.1 hn)
    subst ha0
    simp only [List.nil_append, removeLoop, and_self, if_true, List.nil_append]
    exact removeLoop_comment_body b c hb hc
  | succ n ih =>
    intro a s hn
    cases a with
    | nil =>
      simp only [List.nil_append, removeLoop, and_self, if_true, List.nil_append]
      exact removeLoop_comment_body b c hb hc
    | cons x a' =>
      rw [List.cons_append, List.cons_append, removeLoop_cons, removeLoop_cons]
      cases a' with
      | nil =>
        simp only [List.nil_append, List.head?_cons, List.tail_cons, and_true]
        split
        · have hb' : NoLineBreak (47 :: b) := by
            intro y hy
            rcases List.mem_cons.1 hy with rfl | hy
            · omega
            · exact hb y hy
          have := removeLoop_comment_body (47 :: b) c hb' hc
          rw [List.cons_append] at this
          rw [this]
          simp [removeLoop, written, flagAfter]
        · rw [List.append_assoc]
          congr 1
          have := ih [] (flagAfter s x) (by simp)
          simpa using this
      | cons y a'' =>
        simp only [List.cons_append, List.head?_cons, List.tail_cons]
        split
        · exact ih a'' true (by simp at hn; omega)
        · rw [List.append_assoc]
          congr 1
          have := ih (y :: a'') (flagAfter s x) (by simpa using hn)
          simpa using this

/-- What is written up to and including a `//` consists of bytes that precede it. -/
theorem removeLoop_before_comment (s : Bool) (a : List Nat) :
    (removeLoop s (a ++ [47, 47])).Sublist a := by
  suffices h : ∀ n (a : List Nat) (s : Bool), a.length ≤ n →
      (removeLoop s (a ++ [47, 47])).Sublist a from h _ a s le_rfl
  clear s a
  intro n
  induction n with
  | zero =>
    intro a s hn
    have ha0 : a = [] := List.length_eq_zero.1 (Nat.le_zero.1 hn)
    subst ha0
    simp [removeLoop]
  | succ n ih =>
    intro a s hn
    cases a with
    | nil => simp [removeLoop]
    | cons x a' =>
      rw [List.cons_append, removeLoop_cons]
      cases a' with
      | nil =>
        simp only [List.nil_append, List.head?_cons, List.tail_cons, and_true]
        split
        · simp [removeLoop, written, flagAfter]
        · have h0 : removeLoop (flagAfter s x) [47, 47] = [] := by simp [removeLoop]
          rw [h0, List.append_nil]
          exact written_sublist s x
      | cons y a'' =>
        simp only [List.cons_append, List.head?_cons, List.tail_cons]
        split
        · exact ((ih a'' true (by simp at hn; omega)).cons y).cons x
        · have := ih (y :: a'') (flagAfter s x) (by simpa using hn)
          exact (written_sublist s x).append this

theorem not_hasDoubleSlash_iff_chain (d : List Nat) :
    ¬ HasDoubleSlash d ↔ List.Chain' (fun x y => ¬ (x = 47 ∧ y = 47)) d := by
  constructor
  · intro h
    induction d with
    | nil => exact List.chain'_nil
    | cons x l ih =>
      cases l with
      | nil => exact List.chain'_singleton x
      | cons y l' =>
        rw [List.chain'_cons]
        refine ⟨fun hxy => h ⟨[], l', by rw [hxy.1, hxy.2]; rfl⟩, ih fun ⟨a, c, hac⟩ => ?_⟩
        exact h ⟨x :: a, c, by rw [hac]; rfl⟩
  · rintro h ⟨a, c, rfl⟩
    exact (List.chain'_append_cons_cons.1 h).2.1 ⟨rfl, rfl⟩

/-- Without `//` the loop copies its input. -/
theorem removeLoop_of_chain (d : List Nat)
    (h : List.Chain' (fun x y => ¬ (x = 47 ∧ y = 47)) d) : removeLoop false d = d := by
  induction d with
  | nil => rfl
  | cons x l ih =>
    have hnp : ¬ (x = 47 ∧ l.head? = some 47) := by
      rintro ⟨hx, hl⟩
      cases l with
      | nil => simp at hl
      | cons y l' =>
        simp only [List.head?_cons, Option.some.injEq] at hl
        exact (List.chain'_cons.1 h).1 ⟨hx, hl⟩
    rw [removeLoop_cons, if_neg hnp, written_false, flagAfter_false, ih h.tail]
    rfl

/-- The loop only drops bytes. -/
theorem removeLoop_sublist (s : Bool) (d : List Nat) : (removeLoop s d).Sublist d := by
  suffices h : ∀ n (d : List Nat) (s : Bool), d.length ≤ n → (removeLoop s d).Sublist d from
    h _ d s le_rfl
  clear s d
  intro n
  induction n with
  | zero =>
    intro d s hn
    have hd : d = [] := List.length_eq_zero.1 (Nat.le_zero.1 hn)
    subst hd
    exact List.Sublist.refl _
  | succ n ih =>
    intro d s hn
    cases d with
    | nil => exact List.Sublist.refl _
    | cons x l =>
      rw [removeLoop_cons]
      split
      · cases l with
        | nil => exact List.nil_sublist _
        | cons y l' =>
          exact ((ih l' true (by simp at hn; omega)).cons y).cons x
      · exact (written_sublist s x).append (ih l _ (by simpa using hn))

/-- A `//` makes the output strictly shorter than the input. -/
theorem removeLoop_length_lt (s : Bool) (d : List Nat) (h : HasDoubleSlash d) :
    (removeLoop s d).length < d.length := by
  induction d generalizing s with
  | nil =>
    obtain ⟨a, c, hac⟩ := h
    simp at hac
  | cons x l ih =>
    rw [removeLoop_cons]
    split
    · cases l with
      | nil => simp_all
      | cons y l' =>
        have := (removeLoop_sublist true l').length_le
        simp only [List.tail_cons, List.length_cons]
        omega
    · rename_i hnp
      have hl : HasDoubleSlash l := by
        obtain ⟨a, c, hac⟩ := h
        cases a with
        | nil =>
          simp only [List.nil_append, List.cons.injEq] at hac
          exact absurd ⟨hac.1, by rw [hac.2]; rfl⟩ hnp
        | cons z a' =>
          simp only [List.cons_append, List.cons.injEq] at hac
          exact ⟨a', c, hac.2⟩
      have h1 := ih (flagAfter s x) hl
      have h2 : (written s x).length ≤ 1 := (written_sublist s x).length_le
      rw [List.length_append, List.length_cons]
      omega

/-- The output never contains `//`. -/
theorem removeLoop_chain (s : Bool) (d : List Nat) :
    List.Chain' (fun x y => ¬ (x = 47 ∧ y = 47)) (removeLoop s d) := by
  suffices h : ∀ n (d : List Nat) (s : Bool), d.length ≤ n →
      List.Chain' (fun x y => ¬ (x = 47 ∧ y = 47)) (removeLoop s d) from h _ d s le_rfl
  clear s d
  intro n
  induction n with
  | zero =>
    intro d s hn
    have hd : d = [] := List.length_eq_zero.1 (Nat.le_zero.1 hn)
    subst hd
    exact List.chain'_nil
  | succ n ih =>
    intro d s hn
    cases d with
    | nil => exact List.chain'_nil
    | cons x l =>
      rw [removeLoop_cons]
      split
      · cases l with
        | nil => exact List.chain'_nil
        | cons y l' => exact ih l' true (by simp at hn; omega)
      · rename_i hnp
        have hrest := ih l (flagAfter s x) (by simpa using hn)
        unfold written
        split
        · rename_i hw
          have hf : flagAfter s x = false := by simpa using hw
          rw [hf] at hrest ⊢
          rw [List.singleton_append, List.chain'_cons']
          refine ⟨fun y hy hxy => ?_, hrest⟩
          cases l with
          | nil => simp [removeLoop] at hy
          | cons z l' =>
            have hz : z ≠ 47 := fun hz => hnp ⟨hxy.1, by rw [hz]; rfl⟩
            rw [removeLoop_cons] at hy
            simp only [hz, false_and, if_false, written_false, List.singleton_append,
              List.head?_cons, Option.mem_def, Option.some.injEq] at hy
            exact hz (hy ▸ hxy.2)
        · simpa using hrest

/-- An input that the loop copies contains no `//`. -/
theorem not_hasDoubleSlash_of_fixed (d : List Nat) (h : removeJSONComments d = d) :
    ¬ HasDoubleSlash d := by
  intro hds
  have := removeLoop_length_lt false d hds
  unfold removeJSONComments at h
  rw [h] at this
  exact Nat.lt_irrefl _ this

theorem removeLoop_break (t : Nat) (c : List Nat) (ht : t = 10 ∨ t = 13) :
    removeLoop false (t :: c) = t :: removeLoop false c := by
  have h47 : t ≠ 47 := by rcases ht with h | h <;> omega
  rw [removeLoop_cons]
  simp [h47, written_false, flagAfter_false]

/-- C11 (as stated, refuted): the input `a//b\nc` yields `a\nc`, not `ac`: the line
break that ends the comment is written. -/
theorem C11_counterexample :
    removeJSONComments (bytesOf "a//b\nc") = bytesOf "a\nc" ∧
    removeJSONComments (bytesOf "a//b\nc") ≠ bytesOf "ac" := by
  decide

/-- C11 (amended): `removeJSONComments` elides each comment up to, but not including,
its terminator: when `//` is followed by bytes `b` without a line break and then by a
line break `t`, the output is what is written up to the `//` (bytes that precede it),
then `t`, then the output for what follows `t`; no byte of `//` or of `b` is written. -/
theorem C11_comment_elided_terminator_kept (a b c : List Nat) (t : Nat)
    (hb : NoLineBreak b) (ht : t = 10 ∨ t = 13) :
    removeJSONComments (a ++ 47 :: 47 :: (b ++ t :: c)) =
      removeJSONComments (a ++ [47, 47]) ++ t :: removeJSONComments c ∧
    (removeJSONComments (a ++ [47, 47])).Sublist a := by
  refine ⟨?_, removeLoop_before_comment false a⟩
  unfold removeJSONComments
  rw [removeLoop_comment false a b (t :: c) hb (Or.inr ⟨t, c, rfl, ht⟩),
    removeLoop_break t c ht]

theorem C11_comment_elided_terminator_kept_witness :
    removeJSONComments (bytesOf "a" ++ 47 :: 47 :: (bytesOf "b" ++ 10 :: bytesOf "c")) =
      removeJSONComments (bytesOf "a" ++ [47, 47]) ++ 10 :: removeJSONComments (bytesOf "c") ∧
    (removeJSONComments (bytesOf "a" ++ [47, 47])).Sublist (bytesOf "a") :=
  C11_comment_elided_terminator_kept (bytesOf "a") (bytesOf "b") (bytesOf "c") 10
    (by decide) (Or.inl rfl)

/-- C12: `removeJSONComments` has no quoted-string awareness. The output equals the
input if and only if the input contains no two consecutive `/` bytes; when `//` occurs
the output is strictly shorter than the input; and for every occurrence of `//`,
followed by bytes `b` without a line break up to a line break or the end of the input,
the output is made of bytes that precede the `//` and of the output for what follows
`b`. The document `{"name":"a//b"}` is cut to `{"name":"a`. -/
theorem C12_no_quoted_string_awareness (d : List Nat) :
    (removeJSONComments d = d ↔ ¬ HasDoubleSlash d) ∧
    (HasDoubleSlash d → (removeJSONComments d).length < d.length) ∧
    (∀ a b c : List Nat, d = a ++ 47 :: 47 :: (b ++ c) → NoLineBreak b →
      (c = [] ∨ ∃ t c', c = t :: c' ∧ (t = 10 ∨ t = 13)) →
      removeJSONComments d = removeJSONComments (a ++ [47, 47]) ++ removeJSONComments c ∧
      (removeJSONComments (a ++ [47, 47])).Sublist a) ∧
    removeJSONComments (bytesOf "\x7b\"name\":\"a//b\"\x7d") = bytesOf "\x7b\"name\":\"a" := by
  refine ⟨⟨not_hasDoubleSlash_of_fixed d, fun h => ?_⟩, removeLoop_length_lt false d, ?_,
    by decide⟩
  · exact removeLoop_of_chain d ((not_hasDoubleSlash_iff_chain d).1 h)
  · rintro a b c rfl hb hc
    exact ⟨removeLoop_comment false a b c hb hc, removeLoop_before_comment false a⟩

/-- C17: the output of `removeJSONComments` never contains two consecutive `/` bytes,
and `removeJSONComments` is idempotent. -/
theorem C17_output_has_no_double_slash (d : List Nat) :
    ¬ HasDoubleSlash (removeJSONComments d) ∧
    removeJSONComments (removeJSONComments d) = removeJSONComments d :=
  ⟨(not_hasDoubleSlash_iff_chain _).2 (removeLoop_chain false d),
    removeLoop_of_chain _ (removeLoop_chain false d)⟩

/-! ## Properties of the command-line tools -/

/-- C13 (as stated, refuted): with an empty `-f` the converter prints its message and
`main` returns, so the exit status is 0, not 1; likewise for the recipe diff and the
path-list diff with an empty `--old`. -/
theorem C13_counterexample :
    mainReadDB emptyWorld "" =
      ⟨["Please specify the file path using the -f option\n"], 0⟩ ∧
    (mainReadDB emptyWorld "").status ≠ 1 ∧
    (mainCompareDB emptyWorld (fun _ => insertionOrder) "" "new.json").status ≠ 1 ∧
    (mainCompareFS emptyWorld insertionOrder "" "new.txt").status ≠ 1 := by
  decide

/-- C13 (amended): in each of the three tools a missing required flag prints a
single-line message and `main` returns, which ends the process with exit status 0; the
outcome is the same in every world, so neither the reader nor the diff runs. -/
theorem C13_missing_flag_prints_usage_and_returns (w : World)
    (ranges : Nat → Range Ingredient) (range : Range Unit) (path : String) :
    mainReadDB w "" = ⟨["Please specify the file path using the -f option\n"], 0⟩ ∧
    mainCompareDB w ranges "" path = ⟨["Usage: --old <old_file> --new <new_file>\n"], 0⟩ ∧
    mainCompareDB w ranges path "" = ⟨["Usage: --old <old_file> --new <new_file>\n"], 0⟩ ∧
    mainCompareFS w range "" path = ⟨["Usage: --old <old_file> --new <new_file>\n"], 0⟩ ∧
    mainCompareFS w range path "" = ⟨["Usage: --old <old_file> --new <new_file>\n"], 0⟩ := by
  simp [mainReadDB, mainCompareDB, mainCompareFS]

theorem stringsToLower_json : stringsToLower ".json" = ".json" := by decide

theorem stringsToLower_xml : stringsToLower ".xml" = ".xml" := by decide

theorem filepathExt_empty : filepathExt "" = "" := by decide

/-- C14 (as stated, refuted): for the empty path `getReader` returns the
`unsupported file extension` error, but the converter given the empty path never calls
`getReader`: it prints its message about `-f` and `main` returns, with exit status 0. -/
theorem C14_counterexample :
    getReader "" = .error "unsupported file extension: " ∧
    ∀ w : World,
      mainReadDB w "" = ⟨["Please specify the file path using the -f option\n"], 0⟩ ∧
      (mainReadDB w "").status ≠ 1 := by
  refine ⟨by rfl, fun w => ?_⟩
  simp [mainReadDB]

/-- C14 (amended): `getReader` succeeds if and only if the extension of the path is
exactly `.json` or `.xml`; otherwise it returns the `unsupported file extension` error
and the converter, given that path, prints it and exits with status 1, unless the path
is empty: then the converter prints its message about `-f` and exits with status 0.
When `getReader` succeeds the output format of the converter is the opposite one, `xml`
for `.json` and `json` for `.xml`, never empty, and that is the encoder whose result is
printed. The comparison of the extension is case sensitive: `.JSON` is refused. -/
theorem C14_reader_and_opposite_format (w : World) (filePath : String) :
    ((∃ reader, getReader filePath = .ok reader) ↔
      filepathExt filePath = ".json" ∨ filepathExt filePath = ".xml") ∧
    (filepathExt filePath ≠ ".json" → filepathExt filePath ≠ ".xml" →
      getReader filePath = .error ("unsupported file extension: " ++ filepathExt filePath) ∧
      (filePath ≠ "" → mainReadDB w filePath =
        ⟨["Error: unsupported file extension: " ++ filepathExt filePath ++ "\n"], 1⟩)) ∧
    (filepathExt filePath = ".json" →
      getReader filePath = .ok .JSONReader ∧ outputFormat filePath = "xml" ∧
      ∀ db data, DBReader.Read w .JSONReader filePath = .ok db →
        w.xmlMarshalIndent db = some data → mainReadDB w filePath = ⟨[data ++ "\n"], 0⟩) ∧
    (filepathExt filePath = ".xml" →
      getReader filePath = .ok .XMLReader ∧ outputFormat filePath = "json" ∧
      ∀ db data, DBReader.Read w .XMLReader filePath = .ok db →
        w.jsonMarshalIndent db = some data → mainReadDB w filePath = ⟨[data ++ "\n"], 0⟩) ∧
    ((∃ reader, getReader filePath = .ok reader) →
      outputFormat filePath = "xml" ∨ outputFormat filePath = "json") ∧
    getReader "db/recipes.JSON" = .error "unsupported file extension: .JSON" ∧
    mainReadDB w "" = ⟨["Please specify the file path using the -f option\n"], 0⟩ := by
  have hne : ∀ e : String, filepathExt filePath = e → e ≠ "" → filePath ≠ "" := by
    intro e he hne hp
    rw [hp, filepathExt_empty] at he
    exact hne he.symm
  have hj : filepathExt filePath = ".json" →
      getReader filePath = .ok .JSONReader ∧ outputFormat filePath = "xml" := by
    intro h
    simp [getReader, outputFormat, h, stringsToLower_json]
  have hx : filepathExt filePath = ".xml" →
      getReader filePath = .ok .XMLReader ∧ outputFormat filePath = "json" := by
    intro h
    have h1 : (".xml" : String) ≠ ".json" := by decide
    simp [getReader, outputFormat, h, stringsToLower_xml, h1]
  have herr : filepathExt filePath ≠ ".json" → filepathExt filePath ≠ ".xml" →
      getReader filePath =
        .error ("unsupported file extension: " ++ filepathExt filePath) := by
    intro h1 h2
    simp [getReader, h1, h2]
  refine ⟨⟨?_, ?_⟩, ?_, ?_, ?_, ?_, by rfl, by simp [mainReadDB]⟩
  · rintro ⟨reader, hr⟩
    by_contra hcon
    rw [not_or] at hcon
    rw [herr hcon.1 hcon.2] at hr
    cases hr
  · rintro (h | h)
    · exact ⟨_, (hj h).1⟩
    · exact ⟨_, (hx h).1⟩
  · intro h1 h2
    refine ⟨herr h1 h2, fun hp => ?_⟩
    simp only [mainReadDB, hp, herr h1 h2, HandleError, if_false]
    rw [← String.append_assoc]
    rfl
  · intro h
    refine ⟨(hj h).1, (hj h).2, fun db data hread hdata => ?_⟩
    have hp := hne _ h (by decide)
    simp [mainReadDB, hp, (hj h).1, (hj h).2, HandleError, hread, printDB, hdata]
  · intro h
    refine ⟨(hx h).1, (hx h).2, fun db data hread hdata => ?_⟩
    have hp := hne _ h (by decide)
    simp [mainReadDB, hp, (hx h).1, (hx h).2, HandleError, hread, printDB, hdata]
  · rintro ⟨reader, hr⟩
    by_cases h1 : filepathExt filePath = ".json"
    · exact Or.inl (hj h1).2
    · by_cases h2 : filepathExt filePath = ".xml"
      · exact Or.inr (hx h2).2
      · rw [herr h1 h2] at hr
        cases hr

/-! ## Duplicate names and exchanged arguments -/

theorem sharedCake_eq_lastCakeRecords (range : Range Ingredient) (new : List Cake)
    (c : Cake) : sharedCake range (cakeMap new) c = lastCakeRecords range new c := by
  have hg : mapGet (cakeMap new) c.Name = lastCake new c.Name := by
    rw [cakeMap_eq, mapGet_keyed]; rfl
  unfold sharedCake lastCakeRecords
  rw [hg]
  cases lastCake new c.Name with
  | none => rfl
  | some n => simp only [ne_eq, ite_not]

theorem CompareDatabases_eq (ranges : Nat → Range Ingredient) (old new : Recipes) :
    CompareDatabases ranges old new =
      (new.Cakes.filter fun c => decide (c.Name ∉ old.Cakes.map Cake.Name)).map
        (fun c => addedCake c.Name)
      ++ (old.Cakes.filter fun c => decide (c.Name ∉ new.Cakes.map Cake.Name)).map
        (fun c => removedCake c.Name)
      ++ old.Cakes.enum.flatMap
        (fun p => sharedCake (ranges p.1) (cakeMap new.Cakes) p.2) := by
  unfold CompareDatabases
  simp only [cakeMap_eq, flatMap_absent_eq_filter]
  congr 1
  rw [← cakeMap_eq, sharedCakes_eq_enumFrom]
  rfl

/-- C16: when a name occurs more than once the keyed view keeps the last occurrence.
Every old cake is compared against the last cake of its name in the new collection,
and inside a cake the count and unit comparison visits each ingredient name of the old
cake once, with the last old ingredient of that name, against the last new ingredient
of that name. The diff is a total function: it returns a report for every input. -/
theorem C16_last_occurrence_wins (ranges : Nat → Range Ingredient) (hr : RangesOK ranges)
    (old new : Recipes) :
    (∃ out : List String, CompareDatabases ranges old new = out) ∧
    CompareDatabases ranges old new =
      (new.Cakes.filter fun c => decide (c.Name ∉ old.Cakes.map Cake.Name)).map
        (fun c => addedCake c.Name)
      ++ (old.Cakes.filter fun c => decide (c.Name ∉ new.Cakes.map Cake.Name)).map
        (fun c => removedCake c.Name)
      ++ old.Cakes.enum.flatMap (fun p => lastCakeRecords (ranges p.1) new.Cakes p.2) ∧
    ∀ (i : Nat) (cake : String) (o n : List Ingredient),
      ∃ entries : List (String × Ingredient),
        (entries.map Prod.fst).Nodup ∧
        (∀ k x, (k, x) ∈ entries ↔ lastIngredient o k = some x) ∧
        compareIngredients (ranges i) cake o n =
          (n.filter fun x => decide (x.Name ∉ o.map Ingredient.Name)).map
            (fun x => addedIngredient x.Name cake)
          ++ (o.filter fun x => decide (x.Name ∉ n.map Ingredient.Name)).map
            (fun x => removedIngredient x.Name cake)
          ++ entries.flatMap (sharedRecords cake n) := by
  refine ⟨⟨_, rfl⟩, ?_, fun i cake o n => ⟨ranges i (ingredientMap o), ?_, fun k x => ?_, ?_⟩⟩
  · rw [CompareDatabases_eq]
    congr 1
    exact List.flatMap_congr fun p _ => sharedCake_eq_lastCakeRecords _ _ _
  · exact (((hr i _).map Prod.fst).nodup_iff).2 (keyed_nodup _ _)
  · rw [(hr i _).mem_iff, mem_ingredientMap_iff]
  · exact compareIngredients_eq _ _ _ _

theorem C16_last_occurrence_wins_witness :
    CompareDatabases (fun _ => insertionOrder) repeatedOld repeatedNew =
      (repeatedNew.Cakes.filter fun c =>
          decide (c.Name ∉ repeatedOld.Cakes.map Cake.Name)).map (fun c => addedCake c.Name)
      ++ (repeatedOld.Cakes.filter fun c =>
          decide (c.Name ∉ repeatedNew.Cakes.map Cake.Name)).map (fun c => removedCake c.Name)
      ++ repeatedOld.Cakes.enum.flatMap
          (fun p => lastCakeRecords insertionOrder repeatedNew.Cakes p.2) :=
  (C16_last_occurrence_wins (fun _ => insertionOrder) (fun _ m => List.Perm.refl m)
    repeatedOld repeatedNew).2.1

/-- C19: the uniqueness invariant is necessary for the identity property. The
collection `twoTimes` has two cakes of the same name that differ in their time, and
comparing it with itself emits a record; with `a = twoTimes`, which repeats a cake
name, and `b = lastOfTwoTimes`, `CompareDatabases b a` is empty although
`CompareDatabases a b` is not. -/
theorem C19_uniqueness_is_necessary :
    (∃ r : Recipes, ¬ CakeNamesUnique r ∧
      ∀ ranges : Nat → Range Ingredient, RangesOK ranges →
        CompareDatabases ranges r r ≠ []) ∧
    (∃ a b : Recipes, ¬ CakeNamesUnique a ∧
      ∀ ranges : Nat → Range Ingredient, RangesOK ranges →
        CompareDatabases ranges b a = [] ∧ CompareDatabases ranges a b ≠ []) := by
  have hnil : ∀ ranges : Nat → Range Ingredient, RangesOK ranges →
      ∀ i, ranges i [] = [] := fun ranges hr i => List.Perm.eq_nil (hr i [])
  refine ⟨⟨twoTimes, by decide, fun ranges hr => ?_⟩,
    ⟨twoTimes, lastOfTwoTimes, by decide, fun ranges hr => ⟨?_, ?_⟩⟩⟩
  · have h : CompareDatabases ranges twoTimes twoTimes =
        [changedTime "Muffin" "20 min" "10 min"] := by
      simp [CompareDatabases, sharedCakes, sharedCake, compareIngredients, cakeMap,
        ingredientMap, mapSet, mapGet, twoTimes, hnil ranges hr]
    rw [h]
    exact List.cons_ne_nil _ _
  · simp [CompareDatabases, sharedCakes, sharedCake, compareIngredients, cakeMap,
      ingredientMap, mapSet, mapGet, twoTimes, lastOfTwoTimes, hnil ranges hr]
  · have h : CompareDatabases ranges twoTimes lastOfTwoTimes =
        [changedTime "Muffin" "20 min" "10 min"] := by
      simp [CompareDatabases, sharedCakes, sharedCake, compareIngredients, cakeMap,
        ingredientMap, mapSet, mapGet, twoTimes, lastOfTwoTimes, hnil ranges hr]
    rw [h]
    exact List.cons_ne_nil _ _

/-! ## Round trip through a reader -/

end RecipeDB
